import Mathlib

/-!
Verification of the constraint-expansion stage of the CP-SAT presolver
(ortools/sat/cp_model_expand.cc).

The development shallowly embeds the data model of the expander: integer
variables with finite domains, signed Boolean literal references, the
constraint payloads touched by the expansion functions, and a presolve
context holding the domains, the emitted constraints and the value-encoding
cache.  The expansion functions of cp_model_expand.cc are translated into
executable Lean functions over this state; collaborator operations that live
outside the snapshot (the PresolveContext, the Domain class of
sorted_interval_list, cp_model_utils helpers) are modelled from the
specification and marked as such in their doc comments.

All domains handled by the theorems are finite, so domains are represented
exactly as strictly sorted lists of the values they contain.
-/

namespace Spec2Proof

/-- Boolean references follow cp_model_utils: a nonnegative integer denotes a
Boolean variable, and the negation of reference r is -r - 1. -/
def NegatedRef (r : ℤ) : ℤ := -r - 1

/-- Translation of RefIsPositive from cp_model_utils. -/
def RefIsPositive (r : ℤ) : Bool := decide (0 ≤ r)

/-- Translation of PositiveRef from cp_model_utils. -/
def PositiveRef (r : ℤ) : ℤ := if 0 ≤ r then r else NegatedRef r

/-- Domains are modelled as strictly sorted lists of the contained values. -/
abbrev Domain := List ℤ

/-- Ordered duplicate-free insertion into a sorted value list. -/
def insertSorted (v : ℤ) : Domain → Domain
  | [] => [v]
  | x :: xs =>
    if v < x then v :: x :: xs
    else if v = x then x :: xs
    else x :: insertSorted v xs

/-- Sorting and duplicate removal, the model of gtl::STLSortAndRemoveDuplicates
and of Domain::FromValues. -/
def sortDedup (l : List ℤ) : Domain := l.foldr insertSorted []

/-- Intersection of two domains. -/
def interD (d e : Domain) : Domain := d.filter fun v => e.contains v

/-- Union of two domains (Domain::UnionWith). -/
def unionD (d e : Domain) : Domain := sortDedup (d ++ e)

/-- Image of a domain under an integer function, the exact model of the image
superset operations of the Domain class. -/
def imageD (f : ℤ → ℤ) (d : Domain) : Domain := sortDedup (d.map f)

/-- Exact sum set of two domains (Domain::AdditionWith). -/
def addD (d e : Domain) : Domain := sortDedup (d.flatMap fun x => e.map fun y => x + y)

/-- The contiguous domain lb..ub as a value list (Domain(lb, ub)). -/
def rangeD (lb ub : ℤ) : Domain := (List.range (ub + 1 - lb).toNat).map fun i => lb + i

/-- Linear expression proto: sum of coefficient * variable plus offset. -/
structure LinearExpr where
  vars : List ℕ
  coeffs : List ℤ
  offset : ℤ
deriving DecidableEq

/-- Payload of a linear constraint proto: variable references (they may be
negated Boolean references, as in the reservoir expansion), coefficients, and
the flattened list of domain interval bounds. -/
structure LinPayload where
  lvars : List ℤ
  lcoeffs : List ℤ
  ldomain : List ℤ
deriving DecidableEq

/-- The constraint payloads produced or consumed by the expansion functions.
StoreBooleanEqualityRelation and AddImplication of the context are modelled as
their own payloads. -/
inductive CstKind where
  | boolOr (lits : List ℤ)
  | boolAnd (lits : List ℤ)
  | atMostOne (lits : List ℤ)
  | exactlyOne (lits : List ℤ)
  | linear (payload : LinPayload)
  | intDiv (target : LinearExpr) (exprs : List LinearExpr)
  | intProd (target : LinearExpr) (exprs : List LinearExpr)
  | implication (a b : ℤ)
  | implyInDomain (lit : ℤ) (v : ℕ) (d : Domain)
  | boolEq (a b : ℤ)
deriving DecidableEq

/-- A constraint of the working model: enforcement literals plus payload. -/
structure Cst where
  enforcement : List ℤ
  kind : CstKind
deriving DecidableEq

/-- The slice of the PresolveContext state the expansion functions interact
with: per-variable domains, the constraints appended to the working model, the
(var, value) to literal encoding cache, the reified-precedence cache and the
infeasibility flag.  Modelled from the spec (sections 2 and 6): the
PresolveContext itself is not part of the snapshot under src/. -/
structure Ctx where
  domains : List Domain
  constraints : List Cst
  encoding : List ((ℕ × ℤ) × ℤ)
  precCache : List ((LinearExpr × LinearExpr × ℤ × ℤ) × ℤ)
  unsat : Bool
deriving DecidableEq

def Ctx.domainOf (ctx : Ctx) (v : ℕ) : Domain := ctx.domains.getD v []

def Ctx.numVars (ctx : Ctx) : ℕ := ctx.domains.length

/-- NewIntVar: a fresh variable with the given domain (modelled from spec §6). -/
def Ctx.newVar (ctx : Ctx) (d : Domain) : ℕ × Ctx :=
  (ctx.domains.length, { ctx with domains := ctx.domains ++ [d] })

/-- NewBoolVar (modelled from spec §6). -/
def Ctx.newBoolVar (ctx : Ctx) : ℕ × Ctx := ctx.newVar [0, 1]

def Ctx.addCst (ctx : Ctx) (c : Cst) : Ctx :=
  { ctx with constraints := ctx.constraints ++ [c] }

/-- The context with its constraint list replaced; used to state how an
expansion extends the working model. -/
def Ctx.withConstraints (ctx : Ctx) (cs : List Cst) : Ctx :=
  { ctx with constraints := cs }

/-- NotifyThatModelIsUnsat (modelled from spec §6). -/
def Ctx.notifyUnsat (ctx : Ctx) : Ctx := { ctx with unsat := true }

def Ctx.setDomain (ctx : Ctx) (v : ℕ) (d : Domain) : Ctx :=
  { ctx with domains := ctx.domains.set v d }

def Ctx.isFixedVar (ctx : Ctx) (v : ℕ) : Bool := (ctx.domainOf v).length == 1

def Ctx.minOfVar (ctx : Ctx) (v : ℕ) : ℤ := (ctx.domainOf v).headD 0

def Ctx.maxOfVar (ctx : Ctx) (v : ℕ) : ℤ := (ctx.domainOf v).getLastD 0

def Ctx.domainContains (ctx : Ctx) (v : ℕ) (value : ℤ) : Bool :=
  (ctx.domainOf v).contains value

/-- LiteralIsFalse: the domain of the underlying Boolean variable is reduced to
the polarity that falsifies the literal (modelled from spec §6). -/
def Ctx.literalIsFalse (ctx : Ctx) (l : ℤ) : Bool :=
  if 0 ≤ l then ctx.domainOf l.toNat = [0] else ctx.domainOf (PositiveRef l).toNat = [1]

/-- SetLiteralToFalse: intersects the literal variable domain with the
falsifying polarity; a false first component means the model became
infeasible (modelled from spec §6). -/
def Ctx.setLiteralToFalse (ctx : Ctx) (l : ℤ) : Bool × Ctx :=
  let v : ℕ := (PositiveRef l).toNat
  let keep : ℤ := if 0 ≤ l then 0 else 1
  let old := ctx.domainOf v
  let nd := old.filter fun x => x == keep
  if nd.isEmpty then (false, (ctx.setDomain v nd).notifyUnsat)
  else (true, ctx.setDomain v nd)

/-- IntersectDomainWith on a variable; returns (feasible, changed, context).
Modelled from spec §6: a false first component means the model was declared
infeasible. -/
def Ctx.intersectVarDomainWith (ctx : Ctx) (v : ℕ) (d : Domain) : Bool × Bool × Ctx :=
  let old := ctx.domainOf v
  let nd := interD old d
  if nd.isEmpty then (false, true, (ctx.setDomain v nd).notifyUnsat)
  else (decide True, decide (nd ≠ old), ctx.setDomain v nd)

/-- DomainSuperSetOf on a linear expression; exact finite image (modelled from
spec §6). -/
def Ctx.domainSuperSetOf (ctx : Ctx) (e : LinearExpr) : Domain :=
  (e.vars.zip e.coeffs).foldl
    (fun acc vc => addD acc (imageD (fun x => vc.2 * x) (ctx.domainOf vc.1)))
    [e.offset]

/-- IsFixed on a linear expression (modelled from spec §6). -/
def Ctx.isFixedExpr (ctx : Ctx) (e : LinearExpr) : Bool :=
  (ctx.domainSuperSetOf e).length == 1

/-- FixedValue on a linear expression (modelled from spec §6). -/
def Ctx.fixedValueExpr (ctx : Ctx) (e : LinearExpr) : ℤ :=
  (ctx.domainSuperSetOf e).headD 0

/-- IntersectDomainWith on an affine expression in at most one variable, the
only shape reaching the expansion call sites (modelled from spec §6). -/
def Ctx.intersectExprDomainWith (ctx : Ctx) (e : LinearExpr) (d : Domain) : Bool × Ctx :=
  match e.vars, e.coeffs with
  | [v], [c] =>
    let nd := (ctx.domainOf v).filter fun x => d.contains (c * x + e.offset)
    if nd.isEmpty then (false, (ctx.setDomain v nd).notifyUnsat)
    else (true, ctx.setDomain v nd)
  | [], _ => if d.contains e.offset then (true, ctx) else (false, ctx.notifyUnsat)
  | _, _ => (true, ctx)

/-- HasVarValueEncoding (modelled from spec §6). -/
def Ctx.hasVarValueEncoding (ctx : Ctx) (v : ℕ) (value : ℤ) : Bool :=
  (ctx.encoding.lookup (v, value)).isSome

/-- GetOrCreateVarValueEncoding: the encoding cache maps (var, value) to a
literal meaning var == value and creates a fresh Boolean on a miss (modelled
from spec §2 and §6). -/
def Ctx.getOrCreateVarValueEncoding (ctx : Ctx) (v : ℕ) (value : ℤ) : ℤ × Ctx :=
  match ctx.encoding.lookup (v, value) with
  | some l => (l, ctx)
  | none =>
    let bc := ctx.newBoolVar
    ((bc.1 : ℤ), { bc.2 with encoding := bc.2.encoding ++ [((v, value), (bc.1 : ℤ))] })

/-- InsertVarValueEncoding: registers an existing literal as the encoding of
(var, value) (modelled from spec §6). -/
def Ctx.insertVarValueEncoding (ctx : Ctx) (lit : ℤ) (v : ℕ) (value : ℤ) : Ctx :=
  if (ctx.encoding.lookup (v, value)).isSome then ctx
  else { ctx with encoding := ctx.encoding ++ [((v, value), lit)] }

/-- AddImplication (modelled from spec §6). -/
def Ctx.addImplication (ctx : Ctx) (a b : ℤ) : Ctx :=
  ctx.addCst ⟨[], .implication a b⟩

/-- AddImplyInDomain (modelled from spec §6). -/
def Ctx.addImplyInDomain (ctx : Ctx) (lit : ℤ) (v : ℕ) (d : Domain) : Ctx :=
  ctx.addCst ⟨[], .implyInDomain lit v d⟩

/-- StoreBooleanEqualityRelation (modelled from spec §6). -/
def Ctx.storeBooleanEqualityRelation (ctx : Ctx) (a b : ℤ) : Ctx :=
  ctx.addCst ⟨[], .boolEq a b⟩

/-- IsFullyEncoded: every value of the underlying variable domain has an
encoding literal (modelled from the spec glossary). -/
def Ctx.isFullyEncodedExpr (ctx : Ctx) (e : LinearExpr) : Bool :=
  match e.vars with
  | [v] => (ctx.domainOf v).all fun value => ctx.hasVarValueEncoding v value
  | _ => true

/-- AddLinearExpressionToLinearConstraint of cp_model_utils (not under src/,
modelled from its known semantics): appends the expression terms multiplied by
the coefficient and shifts every domain bound by -coefficient * offset. -/
def addExprToLinear (e : LinearExpr) (coeff : ℤ) (p : LinPayload) : LinPayload :=
  { lvars := p.lvars ++ e.vars.map fun v => (v : ℤ)
    lcoeffs := p.lcoeffs ++ e.coeffs.map fun c => coeff * c
    ldomain := p.ldomain.map fun x => x - coeff * e.offset }

/-! Integer product expansion (ExpandIntProd, cp_model_expand.cc). -/

/-- ExpressionIsALiteral: the expression is a Boolean variable itself or the
negation 1 - var of one (modelled from spec §6). -/
def Ctx.expressionIsALiteral (ctx : Ctx) (e : LinearExpr) : Option ℤ :=
  match e.vars, e.coeffs with
  | [v], [c] =>
    if ctx.domainOf v = [0, 1] ∨ ctx.domainOf v = [0] ∨ ctx.domainOf v = [1] then
      if c = 1 ∧ e.offset = 0 then some (v : ℤ)
      else if c = -1 ∧ e.offset = 1 then some (NegatedRef v)
      else none
    else none
  | _, _ => none

/-- An int_prod constraint with its proto fields. -/
structure IntProdCt where
  target : LinearExpr
  exprs : List LinearExpr
  enforcement : List ℤ
deriving DecidableEq

/-- Translation of ExpandIntProdWithBoolean (cp_model_expand.cc:275): under the
literal the product equals the integer expression, under its negation the
product is zero. -/
def ExpandIntProdWithBoolean (boolRef : ℤ) (intExpr productExpr : LinearExpr)
    (ctx : Ctx) : Ctx :=
  let one := addExprToLinear productExpr (-1)
    (addExprToLinear intExpr 1 ⟨[], [], [0, 0]⟩)
  let zero := addExprToLinear productExpr 1 ⟨[], [], [0, 0]⟩
  (ctx.addCst ⟨[boolRef], .linear one⟩).addCst ⟨[NegatedRef boolRef], .linear zero⟩

/-- Translation of ExpandIntProd (cp_model_expand.cc:295).  The first returned
component tells whether the constraint was expanded and cleared.  Mirrors the
source branch structure: the first branch fires when only the first factor is a
literal, the else-if branch fires whenever the second factor is a literal. -/
def ExpandIntProd (ct : IntProdCt) (ctx : Ctx) : Bool × Ctx :=
  match ct.exprs with
  | [a, b] =>
    match ctx.expressionIsALiteral a, ctx.expressionIsALiteral b with
    | some la, none => (true, ExpandIntProdWithBoolean la b ct.target ctx)
    | _, some lb => (true, ExpandIntProdWithBoolean lb a ct.target ctx)
    | none, none => (false, ctx)
  | _ => (false, ctx)

/-! Integer modulo expansion (ExpandIntMod, cp_model_expand.cc:208). -/

/-- Positive modulo of x by m: remainder in [0, |m|). -/
def posMod (x m : ℤ) : ℤ := Int.emod x (m.natAbs)

/-- The quotient matching the positive modulo: x = m * posDivV x m + posMod x m. -/
def posDivV (x m : ℤ) : ℤ := (x - posMod x m) / m

/-- Modelled from the spec (§4.2): Domain::PositiveModuloBySuperset of
sorted_interval_list (not under src/), here the exact positive-modulo image of
one domain by the nonzero values of the other. -/
def positiveModuloImage (a b : Domain) : Domain :=
  sortDedup (a.flatMap fun x => (b.filter fun m => m != 0).map fun m => posMod x m)

/-- Modelled from the spec (§4.2): Domain::PositiveDivisionBySuperset (not
under src/), the quotient image matching the positive modulo. -/
def positiveDivisionImage (a b : Domain) : Domain :=
  sortDedup (a.flatMap fun x => (b.filter fun m => m != 0).map fun m => posDivV x m)

/-- Exact product image of two domains, the finite model of
Domain::ContinuousMultiplicationBy (not under src/). -/
def mulImage (a b : Domain) : Domain := sortDedup (a.flatMap fun x => b.map fun m => x * m)

/-- Negation image of a domain (Domain::Negation, not under src/). -/
def negD (d : Domain) : Domain := sortDedup (d.map fun x => -x)

/-- An int_mod constraint: target == expr mod modExpr, with expr the proto
field exprs(0) and modExpr the proto field exprs(1). -/
structure IntModCt where
  target : LinearExpr
  expr : LinearExpr
  modExpr : LinearExpr
  enforcement : List ℤ
deriving DecidableEq

/-- Translation of ExpandIntMod (cp_model_expand.cc:208).  The first returned
component tells whether the constraint was expanded and cleared. -/
def ExpandIntMod (ct : IntModCt) (ctx : Ctx) : Bool × Ctx :=
  if ctx.isFixedExpr ct.modExpr then (false, ctx)
  else
    let r1 := ctx.intersectExprDomainWith ct.target
      (positiveModuloImage (ctx.domainSuperSetOf ct.expr)
        (ctx.domainSuperSetOf ct.modExpr))
    if !r1.1 then (false, r1.2)
    else
      let ctx1 := r1.2
      let dv := ctx1.newVar (positiveDivisionImage (ctx1.domainSuperSetOf ct.expr)
        (ctx1.domainSuperSetOf ct.modExpr))
      let divVar := dv.1
      let ctx2 := dv.2
      let divExpr : LinearExpr := ⟨[divVar], [1], 0⟩
      let ctx3 := ctx2.addCst ⟨ct.enforcement, .intDiv divExpr [ct.expr, ct.modExpr]⟩
      let prodDomain := interD
        (mulImage (ctx3.domainOf divVar) (ctx3.domainSuperSetOf ct.modExpr))
        (addD (ctx3.domainSuperSetOf ct.expr) (negD (ctx3.domainSuperSetOf ct.target)))
      let pv := ctx3.newVar prodDomain
      let prodVar := pv.1
      let ctx4 := pv.2
      let prodExpr : LinearExpr := ⟨[prodVar], [1], 0⟩
      let ctx5 := ctx4.addCst ⟨ct.enforcement, .intProd prodExpr [divExpr, ct.modExpr]⟩
      let lin := addExprToLinear ct.target (-1)
        (addExprToLinear prodExpr (-1) (addExprToLinear ct.expr 1 ⟨[], [], [0, 0]⟩))
      (true, ctx5.addCst ⟨ct.enforcement, .linear lin⟩)

/-- Concrete int_mod instance for the C5 counterexample: target is fixed to 5
while the positive-modulo image of expr by modExpr is a subset of 0..2, so the
tightening empties the target domain. -/
def c5BadCtx : Ctx :=
  { domains := [[5], [0, 1, 2, 3], [2, 3], [0, 1]]
    constraints := []
    encoding := []
    precCache := []
    unsat := false }

/-- The int_mod constraint target == a mod b for the counterexample; b has the
non-fixed domain 2..3. -/
def c5BadCt : IntModCt :=
  { target := ⟨[0], [1], 0⟩
    expr := ⟨[1], [1], 0⟩
    modExpr := ⟨[2], [1], 0⟩
    enforcement := [3] }

/-! Reservoir expansion (ExpandReservoir, cp_model_expand.cc:99). -/

/-- Largest int64 value, used by the saturating arithmetic of the reservoir
expansion (ortools saturated_arithmetic, modelled from its semantics). -/
def kInt64Max : ℤ := 9223372036854775807

/-- Smallest int64 value. -/
def kInt64Min : ℤ := -9223372036854775808

/-- Clamp to the int64 range. -/
def capValue (x : ℤ) : ℤ := max kInt64Min (min kInt64Max x)

/-- Saturating addition (CapAdd). -/
def capAdd (a b : ℤ) : ℤ := capValue (a + b)

/-- Saturating subtraction (CapSub). -/
def capSub (a b : ℤ) : ℤ := capValue (a - b)

/-- GetOrCreateReifiedPrecedenceLiteral (modelled from spec §2 and §6): cached
by (time_i, time_j, active_i, active_j); a fresh Boolean on a miss.  The
constraints tying the literal to its meaning are added inside the context and
are outside this model. -/
def Ctx.getOrCreateReifiedPrecedenceLiteral (ctx : Ctx) (ti tj : LinearExpr)
    (ai aj : ℤ) : ℤ × Ctx :=
  match ctx.precCache.lookup (ti, tj, ai, aj) with
  | some l => (l, ctx)
  | none =>
    let bc := ctx.newBoolVar
    ((bc.1 : ℤ),
      { bc.2 with precCache := bc.2.precCache ++ [((ti, tj, ai, aj), (bc.1 : ℤ))] })

/-- A reservoir constraint with its proto fields. -/
structure ReservoirCt where
  timeExprs : List LinearExpr
  levelChanges : List LinearExpr
  activeLiterals : List ℤ
  minLevel : ℤ
  maxLevel : ℤ
deriving DecidableEq

/-- Translation of ExpandReservoir (cp_model_expand.cc:99).  The trueLit
argument stands for context->GetTrueLiteral().  The first returned component
tells whether the constraint was expanded and cleared. -/
def ExpandReservoir (trueLit : ℤ) (ct : ReservoirCt) (ctx : Ctx) : Bool × Ctx :=
  if ct.minLevel > ct.maxLevel then (false, ctx.notifyUnsat)
  else
    let numEvents := ct.timeExprs.length
    let activeLit := fun i =>
      if ct.activeLiterals.length = 0 then trueLit else ct.activeLiterals.getD i 0
    let numPositives :=
      (ct.levelChanges.filter fun e => decide (0 < ctx.fixedValueExpr e)).length
    let numNegatives :=
      (ct.levelChanges.filter fun e => decide (ctx.fixedValueExpr e < 0)).length
    if numPositives > 0 ∧ numNegatives > 0 then
      -- Creates the reified precedence literals for all ordered pairs of
      -- possibly active events, caching them locally like precedence_cache.
      let st1 := (List.range (numEvents - 1)).foldl
        (fun (st : Ctx × List ((ℕ × ℕ) × ℤ)) i =>
          let ai := activeLit i
          if st.1.literalIsFalse ai then st
          else ((List.range (numEvents - (i + 1))).map fun k => i + 1 + k).foldl
            (fun st j =>
              let aj := activeLit j
              if st.1.literalIsFalse aj then st
              else
                let ti := ct.timeExprs.getD i ⟨[], [], 0⟩
                let tj := ct.timeExprs.getD j ⟨[], [], 0⟩
                let r1 := st.1.getOrCreateReifiedPrecedenceLiteral ti tj ai aj
                let r2 := r1.2.getOrCreateReifiedPrecedenceLiteral tj ti aj ai
                (r2.2, st.2 ++ [((i, j), r1.1), ((j, i), r2.1)]))
            st)
        (ctx, [])
      -- Constrains the running level to be consistent at the time of every
      -- event, handling the polarity of the cached precedence literal.
      let ctx9 := (List.range numEvents).foldl
        (fun (c : Ctx) i =>
          let ai := activeLit i
          if c.literalIsFalse ai then c
          else
            let acc := (List.range numEvents).foldl
              (fun (acc : List ℤ × List ℤ × ℤ) j =>
                if i = j then acc
                else
                  let aj := activeLit j
                  if c.literalIsFalse aj then acc
                  else
                    let precLit := (st1.2.lookup (j, i)).getD 0
                    let demand := c.fixedValueExpr (ct.levelChanges.getD j ⟨[], [], 0⟩)
                    if RefIsPositive precLit then
                      (acc.1 ++ [precLit], acc.2.1 ++ [demand], acc.2.2)
                    else
                      (acc.1 ++ [precLit], acc.2.1 ++ [-demand], acc.2.2 - demand))
              ([], [], 0)
            let demandI := c.fixedValueExpr (ct.levelChanges.getD i ⟨[], [], 0⟩)
            c.addCst ⟨[ai], .linear ⟨acc.1, acc.2.1,
              [capAdd (capSub ct.minLevel demandI) acc.2.2,
               capAdd (capSub ct.maxLevel demandI) acc.2.2]⟩⟩)
        st1.1
      (true, ctx9)
    else
      -- All level changes share one sign: only the final sum matters.
      let lin : LinPayload :=
        { lvars := (List.range numEvents).map activeLit
          lcoeffs := (List.range numEvents).map fun i =>
            ctx.fixedValueExpr (ct.levelChanges.getD i ⟨[], [], 0⟩)
          ldomain := [ct.minLevel, ct.maxLevel] }
      (true, ctx.addCst ⟨[], .linear lin⟩)

/-! Orchestrator guard (ExpandCpModel, cp_model_expand.cc:2030). -/

/-- Orchestrator-level state: the context plus the ModelIsExpanded flag and
the disable_constraint_expansion parameter (spec §6). -/
structure OrchState where
  ctx : Ctx
  expanded : Bool
  disableExpansion : Bool
deriving DecidableEq

/-- Translation of the entry and exit structure of ExpandCpModel
(cp_model_expand.cc:2030-2044 and 2162-2177): return immediately when
expansion is disabled, when the model is already infeasible, or when
ModelIsExpanded() is true; otherwise run the two dispatch passes (the body
argument, instantiated by the per-family expanders of this file), return
early if they made the model infeasible, and mark the model expanded through
NotifyThatModelIsExpanded on completion.  Claim C9 concerns only this guard
structure, so the passes stay a parameter and the theorem holds for every
body. -/
def ExpandCpModelWith (body : OrchState → OrchState) (s : OrchState) : OrchState :=
  if s.disableExpansion then s
  else if s.ctx.unsat then s
  else if s.expanded then s
  else
    let t := body s
    if t.ctx.unsat then t else { t with expanded := true }

/-- The empty orchestrator state used by the C9 witness. -/
def c9S0 : OrchState :=
  { ctx := { domains := [], constraints := [], encoding := [], precCache := [], unsat := false }
    expanded := false
    disableExpansion := false }

/-! Automaton expansion (PropagateAutomaton and ExpandAutomaton,
cp_model_expand.cc:49 and cp_model_expand.cc:688). -/

/-- An automaton constraint with its proto fields; the three transition lists
are parallel. -/
structure AutomatonCt where
  vars : List ℕ
  startingState : ℤ
  finalStates : List ℤ
  transTail : List ℤ
  transLabel : List ℤ
  transHead : List ℤ
deriving DecidableEq

/-- The transitions as (tail, label, head) triples. -/
def AutomatonCt.transitions (a : AutomatonCt) : List (ℤ × ℤ × ℤ) :=
  a.transTail.zip (a.transLabel.zip a.transHead)

/-- Translation of PropagateAutomaton (cp_model_expand.cc:49): the forward
pass collects, per time step, the heads of transitions leaving a reachable
tail whose label is in the variable domain (restricted to final states at the
last step); the backward pass keeps only states and labels of transitions
usable on both sides.  Returns (states over n+1 steps, labels over n steps);
the C++ hash sets are modelled as sorted value lists. -/
def PropagateAutomaton (proto : AutomatonCt) (ctx : Ctx) : List Domain × List Domain :=
  let n := proto.vars.length
  let finals := sortDedup proto.finalStates
  let initStates : List Domain := [proto.startingState] :: List.replicate n []
  let initLabels : List Domain := List.replicate n []
  let fwd := (List.range n).foldl
    (fun (st : List Domain × List Domain) time =>
      let upd := proto.transitions.foldl
        (fun (p : Domain × Domain) t =>
          if !(st.1.getD time []).contains t.1 then p
          else if !(ctx.domainContains (proto.vars.getD time 0) t.2.1) then p
          else if time = n - 1 ∧ !finals.contains t.2.2 then p
          else (insertSorted t.2.1 p.1, insertSorted t.2.2 p.2))
        (st.2.getD time [], st.1.getD (time + 1) [])
      (st.1.set (time + 1) upd.2, st.2.set time upd.1))
    (initStates, initLabels)
  (List.range n).reverse.foldl
    (fun (st : List Domain × List Domain) time =>
      let upd := proto.transitions.foldl
        (fun (p : Domain × Domain) t =>
          if !(st.1.getD time []).contains t.1 then p
          else if !(st.2.getD time []).contains t.2.1 then p
          else if !(st.1.getD (time + 1) []).contains t.2.2 then p
          else (insertSorted t.1 p.1, insertSorted t.2.1 p.2))
        ([], [])
      (st.1.set time upd.1, st.2.set time upd.2))
    fwd

/-- Translation of LinkLiteralsAndValues (cp_model_expand.cc:621): groups the
tuple literals supporting each encoding literal (the C++ btree_map iterates by
ascending encoding literal); a single support is stored as a Boolean equality,
otherwise the support clause and one implication per tuple literal are
added. -/
def LinkLiteralsAndValues (literals : List ℤ) (values : List ℤ)
    (encoding : List (ℤ × ℤ)) (ctx : Ctx) : Ctx :=
  let pairs := values.zip literals
  let encLits := sortDedup (values.map fun v => (encoding.lookup v).getD 0)
  encLits.foldl
    (fun c el =>
      let support := (pairs.filter fun p => ((encoding.lookup p.1).getD 0) == el).map
        fun p => p.2
      if support.length = 1 then c.storeBooleanEqualityRelation el (support.headD 0)
      else
        let c1 := c.addCst ⟨[], .boolOr (NegatedRef el :: support)⟩
        support.foldl (fun c2 lit => c2.addImplication lit el) c1)
    ctx

/-- Translation of AddImplyInReachableValues (cp_model_expand.cc:659): no
constraint when every encoded value is reachable; a bool_or over the reachable
encodings when they are at most half of the encoding; otherwise a bool_and
negating the unreachable encodings. -/
def AddImplyInReachableValues (literal : ℤ) (reachableValues : List ℤ)
    (encoding : List (ℤ × ℤ)) (ctx : Ctx) : Ctx :=
  let reach := sortDedup reachableValues
  if reach.length = encoding.length then ctx
  else if reach.length ≤ encoding.length / 2 then
    ctx.addCst ⟨[literal], .boolOr (reach.map fun v => (encoding.lookup v).getD 0)⟩
  else
    ctx.addCst ⟨[literal],
      .boolAnd ((encoding.filter fun p => !reach.contains p.1).map fun p => NegatedRef p.2)⟩

/-- Which encoding one time step of the automaton expansion used. -/
inductive StepDecision where
  | singleTuple
  | light
  | heavy
deriving DecidableEq

/-- Trace record of one automaton time step: the number of surviving rows, the
sizes of the in-state, transition-label and out-state encodings at decision
time, and the chosen encoding. -/
structure StepInfo where
  numTuples : ℕ
  inSize : ℕ
  encSize : ℕ
  outSize : ℕ
  decision : StepDecision
deriving DecidableEq

/-- Translation of the encoding choice of ExpandAutomaton
(cp_model_expand.cc:881-885): the light encoding requires more tuples than
involved encoding literals and all three encodings non-empty. -/
def chooseStepDecision (numTuples inSize encSize outSize : ℕ) : StepDecision :=
  if numTuples > inSize + encSize + outSize ∧ inSize ≠ 0 ∧ encSize ≠ 0 ∧ outSize ≠ 0 then
    .light
  else .heavy

/-- Result of one automaton time step: either the expansion aborts as
infeasible, or it yields the updated context, the in-state encoding inherited
by the next step, and the trace record. -/
inductive StepOut where
  | aborted (ctx : Ctx)
  | stepped (ctx : Ctx) (nextIn : List (ℤ × ℤ)) (info : StepInfo)

/-- Trace projection of a step result. -/
def StepOut.getInfo : StepOut → Option StepInfo
  | .aborted _ => none
  | .stepped _ _ i => some i

/-- Translation of one iteration of the time loop of ExpandAutomaton
(cp_model_expand.cc:723-960) over the surviving (in_state, label, out_state)
rows: the single-tuple shortcut, the full encoding of the step variable over
the surviving labels, the out-state encoding with literal reuse, and the
choice between the light encoding (3-clauses plus AddImplyInReachableValues)
and the heavy tuple-literal encoding linked by LinkLiteralsAndValues. -/
def automatonStep (ctx : Ctx) (inEnc : List (ℤ × ℤ)) (varRef : ℕ)
    (tuples : List (ℤ × ℤ × ℤ)) : StepOut :=
  let numTuples := tuples.length
  let countIn := fun (s : ℤ) => (tuples.filter fun t => t.1 == s).length
  let countTrans := fun (l : ℤ) => (tuples.filter fun t => t.2.1 == l).length
  let countOut := fun (s : ℤ) => (tuples.filter fun t => t.2.2 == s).length
  if numTuples = 1 then
    -- Single-tuple shortcut: fix the variable to the label and falsify the
    -- inherited in-state literals of every other state.
    let label := (tuples.headD (0, 0, 0)).2.1
    let r := ctx.intersectVarDomainWith varRef [label]
    if !r.1 then .aborted r.2.2
    else
      let inState := (tuples.headD (0, 0, 0)).1
      let atFalse := (inEnc.filter fun p => p.1 != inState).map fun p => p.2
      let fin := atFalse.foldl
        (fun (st : Bool × Ctx) lit =>
          if !st.1 then st else st.2.setLiteralToFalse lit)
        (true, r.2.2)
      if !fin.1 then .aborted fin.2
      else .stepped fin.2 [] ⟨1, inEnc.length, 0, 0, .singleTuple⟩
  else
    -- Fully encode the step variable over the surviving labels.
    let transitions2 := sortDedup (tuples.map fun t => t.2.1)
    let r := ctx.intersectVarDomainWith varRef transitions2
    if !r.1 then .aborted r.2.2
    else
      let ctx1 := r.2.2
      let er :=
        if ctx1.isFixedVar varRef then (([] : List (ℤ × ℤ)), ctx1)
        else (ctx1.domainOf varRef).foldl
          (fun (st : List (ℤ × ℤ) × Ctx) v =>
            let g := st.2.getOrCreateVarValueEncoding varRef v
            (st.1 ++ [(v, g.1)], g.2))
          ([], ctx1)
      let encoding := er.1
      let ctx2 := er.2
      -- Out-state encoding: a literal and its negation for two states, one
      -- Boolean per state above two, reusing an in-state or transition
      -- literal when it uniquely determines the out state.
      let outStatesD := sortDedup (tuples.map fun t => t.2.2)
      let og :=
        if outStatesD.length = 2 then
          let b := ctx2.newBoolVar
          ([(outStatesD.getD 0 0, (b.1 : ℤ)), (outStatesD.getD 1 0, NegatedRef b.1)], b.2)
        else if outStatesD.length > 2 then
          outStatesD.foldl
            (fun (st : List (ℤ × ℤ) × Ctx) s =>
              let insForS := (tuples.filter fun t => t.2.2 == s).map fun t => t.1
              let transForS := (tuples.filter fun t => t.2.2 == s).map fun t => t.2.1
              let uniqueIn := insForS.all fun x => x == insForS.headD 0
              let uniqueTrans := transForS.all fun x => x == transForS.headD 0
              if inEnc ≠ [] ∧ uniqueIn ∧ countIn (insForS.headD 0) = countOut s then
                (st.1 ++ [(s, (inEnc.lookup (insForS.headD 0)).getD 0)], st.2)
              else if encoding ≠ [] ∧ uniqueTrans ∧
                  countTrans (transForS.headD 0) = countOut s then
                (st.1 ++ [(s, (encoding.lookup (transForS.headD 0)).getD 0)], st.2)
              else
                let b := st.2.newBoolVar
                (st.1 ++ [(s, (b.1 : ℤ))], b.2))
            ([], ctx2)
        else (([] : List (ℤ × ℤ)), ctx2)
      let outEnc := og.1
      let ctx3 := og.2
      let info : StepInfo := ⟨numTuples, inEnc.length, encoding.length, outEnc.length,
        chooseStepDecision numTuples inEnc.length encoding.length outEnc.length⟩
      let emitted : Ctx :=
        match info.decision with
        | .light =>
          -- Light encoding: restrict labels and out states per in state,
          -- then one 3-clause per row.
          let ctx4 := inEnc.foldl
            (fun c p =>
              let toLabel := (tuples.filter fun t => t.1 == p.1).map fun t => t.2.1
              let toOut := (tuples.filter fun t => t.1 == p.1).map fun t => t.2.2
              AddImplyInReachableValues p.2 toOut outEnc
                (AddImplyInReachableValues p.2 toLabel encoding c))
            ctx3
          tuples.foldl
            (fun c t =>
              c.addCst ⟨[], .boolOr
                [NegatedRef ((inEnc.lookup t.1).getD 0),
                 NegatedRef ((encoding.lookup t.2.1).getD 0),
                 (outEnc.lookup t.2.2).getD 0]⟩)
            ctx4
        | _ =>
          -- Heavy encoding: one tuple literal per row (reusing an encoding
          -- literal whose value appears in exactly one row), an exactly-one
          -- over them for more than two rows, and per-column links.
          let tg :=
            if numTuples = 2 then
              let b := ctx3.newBoolVar
              ([(b.1 : ℤ), NegatedRef b.1], b.2)
            else
              let fl := tuples.foldl
                (fun (st : List ℤ × Ctx) t =>
                  if countIn t.1 = 1 ∧ inEnc ≠ [] then
                    (st.1 ++ [(inEnc.lookup t.1).getD 0], st.2)
                  else if countTrans t.2.1 = 1 ∧ encoding ≠ [] then
                    (st.1 ++ [(encoding.lookup t.2.1).getD 0], st.2)
                  else if countOut t.2.2 = 1 ∧ outEnc ≠ [] then
                    (st.1 ++ [(outEnc.lookup t.2.2).getD 0], st.2)
                  else
                    let b := st.2.newBoolVar
                    (st.1 ++ [(b.1 : ℤ)], b.2))
                ([], ctx3)
              (fl.1, fl.2.addCst ⟨[], .exactlyOne fl.1⟩)
          let tupleLiterals := tg.1
          let ctx4 := tg.2
          let ctx5 := if inEnc ≠ [] then
              LinkLiteralsAndValues tupleLiterals (tuples.map fun t => t.1) inEnc ctx4
            else ctx4
          let ctx6 := if encoding ≠ [] then
              LinkLiteralsAndValues tupleLiterals (tuples.map fun t => t.2.1) encoding ctx5
            else ctx5
          if outEnc ≠ [] then
            LinkLiteralsAndValues tupleLiterals (tuples.map fun t => t.2.2) outEnc ctx6
          else ctx6
      .stepped emitted outEnc info

/-- Result of ExpandAutomaton: the final context, whether the constraint was
cleared, and the per-step trace. -/
structure AutomatonResult where
  ctx : Ctx
  cleared : Bool
  trace : List StepInfo
deriving DecidableEq

/-- Translation of ExpandAutomaton (cp_model_expand.cc:688): the degenerate
cases (no variables: trivially feasible exactly when the starting state is
final; variables but no transitions: infeasible), then the reachability
propagation and the per-step loop over the surviving rows. -/
def ExpandAutomaton (proto : AutomatonCt) (ctx : Ctx) : AutomatonResult :=
  if proto.vars.length = 0 then
    if proto.finalStates.contains proto.startingState then ⟨ctx, true, []⟩
    else ⟨ctx.notifyUnsat, false, []⟩
  else if proto.transLabel.length = 0 then ⟨ctx.notifyUnsat, false, []⟩
  else
    let states := (PropagateAutomaton proto ctx).1
    let n := proto.vars.length
    let res := (List.range n).foldl
      (fun (st : Ctx × List (ℤ × ℤ) × List StepInfo × Bool) time =>
        if st.2.2.2 then st
        else
          let tuples := proto.transitions.foldl
            (fun (acc : List (ℤ × ℤ × ℤ)) t =>
              if !(states.getD time []).contains t.1 then acc
              else if !(states.getD (time + 1) []).contains t.2.2 then acc
              else if !(st.1.domainContains (proto.vars.getD time 0) t.2.1) then acc
              else acc ++ [(t.1, t.2.1, if time + 1 = n then 0 else t.2.2)])
            []
          match automatonStep st.1 st.2.1 (proto.vars.getD time 0) tuples with
          | .aborted c => (c, st.2.1, st.2.2.1, true)
          | .stepped c nextIn info => (c, nextIn, st.2.2.1 ++ [info], false))
      (ctx, [], [], false)
    if res.2.2.2 then ⟨res.1, false, res.2.2.1⟩ else ⟨res.1, true, res.2.2.1⟩

/-- The concrete automaton of the C3 counterexample: two steps; seven rows
survive at time 0 with three distinct labels and three distinct out states. -/
def c3Proto : AutomatonCt :=
  { vars := [0, 1]
    startingState := 0
    finalStates := [5]
    transTail := [0, 0, 0, 0, 0, 0, 0, 1, 2, 3]
    transLabel := [1, 1, 1, 2, 2, 3, 3, 1, 1, 1]
    transHead := [1, 2, 3, 1, 2, 1, 3, 5, 5, 5] }

/-- Context of the C3 counterexample: the step variables 0 and 1 with domains
1..3 and the singleton 1. -/
def c3Ctx : Ctx :=
  { domains := [[1, 2, 3], [1]]
    constraints := []
    encoding := []
    precCache := []
    unsat := false }

/-! All-different usage scanner and expansion decision
(ScanModelAndDecideAllDiffExpansion, AllDiffShouldBeExpanded,
MaybeExpandAllDiff; cp_model_expand.cc:1556, 1802, 1938). -/

/-- The constraint kinds distinguished by the usage scanner switch
(cp_model_expand.cc:1839-1914); only the payloads the classification reads
are carried. -/
inductive OtherCt where
  | boolOrC
  | boolAndC
  | atMostOneC
  | exactlyOneC
  | boolXorC
  | intDivC
  | intModC
  | linMaxC
  | intProdC
  | linearC (lvars : List ℕ) (lcoeffs : List ℤ) (ivs : List (ℤ × ℤ))
  | allDiffC
  | dummyC
  | elementC (index : ℕ)
  | circuitC
  | routesC
  | inverseC
  | reservoirC
  | tableC
  | automatonC
  | intervalC
  | noOverlapC
  | noOverlap2DC
  | cumulativeC
  | notSetC
deriving DecidableEq

/-- Membership in a flattened proto interval list. -/
def memIntervals (ivs : List (ℤ × ℤ)) (v : ℤ) : Bool :=
  ivs.any fun p => decide (p.1 ≤ v ∧ v ≤ p.2)

/-- Translation of IsVarEqOrNeqValue (cp_model_expand.cc:1778): a linear over
one variable whose rhs is fixed, or whose complement intersected with the
variable domain is fixed (var == cst or var != cst). -/
def IsVarEqOrNeqValue (ctx : Ctx) (lvars : List ℕ) (lcoeffs : List ℤ)
    (ivs : List (ℤ × ℤ)) : Bool :=
  if lvars.length ≠ 1 then false
  else if ivs.length = 1 ∧ (ivs.headD (0, 0)).1 = (ivs.headD (0, 0)).2 then true
  else
    ((ctx.domainOf (lvars.headD 0)).filter fun x =>
      !memIntervals ivs ((lcoeffs.headD 0) * x)).length == 1

/-- One arm of the scanner switch: the (domain_is_used, bounds_are_used)
contribution of one constraint touching the variable
(cp_model_expand.cc:1839-1914). -/
def scanOtherCt (ctx : Ctx) (var : ℕ) (oc : OtherCt) : Bool × Bool :=
  match oc with
  | .linMaxC => (false, true)
  | .linearC lvars lcoeffs ivs =>
    if IsVarEqOrNeqValue ctx lvars lcoeffs ivs ∧ var = lvars.getD 0 0 then
      (true, false)
    else if lvars.length > 2 ∧ ivs.length = 1 ∧
        (ivs.headD (0, 0)).1 = (ivs.headD (0, 0)).2 then
      (false, true)
    else (false, false)
  | .elementC index => (decide (index = var), false)
  | .inverseC => (true, false)
  | .tableC => (true, false)
  | .automatonC => (true, false)
  | .intervalC => (false, true)
  | _ => (false, false)

/-- The constraint loop of the scanner for one variable, with the early break
once both usages are found (cp_model_expand.cc:1833-1918); negative indices
are the artificial constraints and are skipped. -/
def scanVarConstraints (ctx : Ctx) (model : List OtherCt) (ctIndices : List ℤ)
    (var : ℕ) : Bool × Bool :=
  ctIndices.foldl
    (fun (acc : Bool × Bool) ci =>
      if acc.1 ∧ acc.2 then acc
      else if ci < 0 then acc
      else
        let r := scanOtherCt ctx var (model.getD ci.toNat .notSetC)
        (acc.1 || r.1, acc.2 || r.2))
    (false, false)

/-- Input of the scanner: the all_diff expressions, the working model
constraints by index, and the variable-to-constraints usage graph
(VarToConstraints of spec §6). -/
structure ScanInput where
  exprs : List LinearExpr
  model : List OtherCt
  varToCts : List (ℕ × List ℤ)
deriving DecidableEq

/-- The per-variable caches of the scanner (cp_model_expand.cc:2127-2129). -/
structure ScanCaches where
  domainUsed : List ℕ
  boundsUsed : List ℕ
  processed : List ℕ
deriving DecidableEq

/-- Translation of ScanModelAndDecideAllDiffExpansion
(cp_model_expand.cc:1802-1936).  The outer accumulators declared at lines
1809-1810 are SHADOWED by the redeclarations inside the expression loop at
lines 1821-1822, so the loop writes only the inner pair and the outer pair —
which lines 1934-1935 copy into the expand and keep outputs — is never
written; the embedding reproduces this faithfully: the loop threads the
caches and a break flag (the break at line 1930 reads the inner pair, and the
cache-hit reads at lines 1826-1827 are also swapped between the two caches),
while the returned pair is the untouched outer accumulators. -/
def ScanModelAndDecideAllDiffExpansion (inp : ScanInput) (ctx : Ctx)
    (caches : ScanCaches) : (Bool × Bool) × ScanCaches :=
  let atLeastOneVarDomainIsUsed := false
  let atLeastOneVarBoundIsUsed := false
  let final := inp.exprs.foldl
    (fun (st : ScanCaches × Bool) e =>
      if st.2 then st
      else
        match e.vars with
        | [] => st
        | v :: _ =>
          if ctx.isFixedVar v then st
          else if st.1.processed.contains v then
            let innerDomain := st.1.boundsUsed.contains v
            let innerBound := st.1.domainUsed.contains v
            (st.1, innerDomain ∧ innerBound)
          else
            let caches1 := { st.1 with processed := st.1.processed ++ [v] }
            let r := scanVarConstraints ctx inp.model
              ((inp.varToCts.lookup v).getD []) v
            let caches2 :=
              { caches1 with
                  domainUsed :=
                    if r.1 then caches1.domainUsed ++ [v] else caches1.domainUsed
                  boundsUsed :=
                    if r.2 then caches1.boundsUsed ++ [v] else caches1.boundsUsed }
            (caches2, r.1 ∧ r.2))
    (caches, false)
  ((atLeastOneVarDomainIsUsed, atLeastOneVarBoundIsUsed), final.1)

/-- Translation of AllDiffShouldBeExpanded (cp_model_expand.cc:1556): small
union domain (at most max(32, 2 * number of expressions)), or all expressions
fully encoded and union strictly below 256. -/
def AllDiffShouldBeExpanded (unionOfDomains : Domain) (exprs : List LinearExpr)
    (ctx : Ctx) : Bool :=
  let numFullyEncoded := (exprs.filter fun e => ctx.isFullyEncodedExpr e).length
  if unionOfDomains.length ≤ 2 * exprs.length ∨ unionOfDomains.length ≤ 32 then true
  else if numFullyEncoded = exprs.length ∧ unionOfDomains.length < 256 then true
  else false

/-- Translation of the decision part of MaybeExpandAllDiff
(cp_model_expand.cc:1938-1972): returns (should_expand,
keep_after_expansion). -/
def MaybeExpandAllDiffDecision (expandParams : Bool) (inp : ScanInput) (ctx : Ctx)
    (caches : ScanCaches) : Bool × Bool :=
  if inp.exprs.length ≤ 1 then (false, false)
  else
    let scanned := ScanModelAndDecideAllDiffExpansion inp ctx caches
    let expandUsage := scanned.1.1
    let keep := scanned.1.2
    let unionOfDomains := (inp.exprs.drop 1).foldl
      (fun acc e => unionD acc (ctx.domainSuperSetOf e))
      (ctx.domainSuperSetOf (inp.exprs.headD ⟨[], [], 0⟩))
    let sizeOk := AllDiffShouldBeExpanded unionOfDomains inp.exprs ctx
    (expandParams || (sizeOk && (expandUsage || !keep)), keep)

/-- Concrete scanner input for the C2 failing instance: an all_diff over the
variables 0 and 1, both of which appear in an interval constraint (so both
are bounds-used and none is domain-used by the intended classification). -/
def c2Inp : ScanInput :=
  { exprs := [⟨[0], [1], 0⟩, ⟨[1], [1], 0⟩]
    model := [.intervalC]
    varToCts := [(0, [0]), (1, [0])] }

/-- Context of the C2 failing instance. -/
def c2Ctx : Ctx :=
  { domains := [[0, 1, 2], [0, 1, 2]]
    constraints := []
    encoding := []
    precCache := []
    unsat := false }

/-! Size-two not-equal linear expansion (ExpandSomeLinearOfSizeTwo,
cp_model_expand.cc:1586). -/

/-- Fuel-based extended Euclid on natural remainders; each row (r, s, t)
keeps the invariant s * A + t * B = r over the original integers A, B.  Fuel
at least the second remainder guarantees termination at remainder zero. -/
def egcdAux : ℕ → ℕ → ℤ → ℤ → ℕ → ℤ → ℤ → ℕ × ℤ × ℤ
  | 0, r0, s0, t0, _, _, _ => (r0, s0, t0)
  | fuel + 1, r0, s0, t0, r1, s1, t1 =>
    if r1 = 0 then (r0, s0, t0)
    else egcdAux fuel r1 s1 t1 (r0 % r1)
      (s0 - ((r0 / r1 : ℕ) : ℤ) * s1) (t0 - ((r0 / r1 : ℕ) : ℤ) * t1)

/-- Extended Euclid over the integers: returns (g, s, t) with
s * a + t * b = g and g the nonnegative gcd. -/
def egcd (a b : ℤ) : ℤ × ℤ × ℤ :=
  let r := egcdAux (b.natAbs + 1) a.natAbs 1 0 b.natAbs 0 1
  ((r.1 : ℤ), r.2.1 * a.sign, r.2.2 * b.sign)

/-- Modelled from the spec (§4.11): SolveDiophantineEquationOfSizeTwo
(ortools util, not under src/) solves a * x0 + b * y0 = c by the extended
Euclidean algorithm; on success it divides a, b and c by their gcd in place
and returns a particular solution, so that the full solution set is
(x0 + b * z, y0 - a * z) over the reduced a, b.  Returns
(reduced a, reduced b, x0, y0). -/
def solveDiophantine (a b c : ℤ) : Option (ℤ × ℤ × ℤ × ℤ) :=
  if a = 0 ∧ b = 0 then none
  else if (egcd a b).1 ∣ c then
    some (a / (egcd a b).1, b / (egcd a b).1,
      (egcd a b).2.1 * (c / (egcd a b).1), (egcd a b).2.2 * (c / (egcd a b).1))
  else none

/-- Modelled from the spec (§4.11): the effective parameter range, i.e. the
set of integers z with x0 + b * z in the first domain and y0 - a * z in the
second (the composition of Domain::AdditionWith, InverseMultiplicationBy and
IntersectionWith of sorted_interval_list, not under src/).  Meaningful for
(a, b) different from (0, 0), the shape guaranteed by a successful
Diophantine solve. -/
def paramRange (d1 d2 : Domain) (a b x0 y0 : ℤ) : Domain :=
  if b ≠ 0 then
    sortDedup
      ((((d1.filter fun x => decide (b ∣ (x - x0))).map fun x => (x - x0) / b).filter
        fun z => d2.contains (y0 - a * z)))
  else if a ≠ 0 then
    sortDedup
      ((((d2.filter fun y => decide (a ∣ (y0 - y))).map fun y => (y0 - y) / a).filter
        fun z => d1.contains (x0 + b * z)))
  else []

/-- A linear constraint over two variables with its proto fields; the rhs is
the flattened interval list of the proto domain. -/
structure LinearTwoCt where
  vars : List ℕ
  coeffs : List ℤ
  rhs : List (ℤ × ℤ)
  enforcement : List ℤ
deriving DecidableEq

/-- The exact set of reachable values of the two-term linear form
(MultiplicationBy then AdditionWith; RelaxIfTooComplex is the identity on
these finite value-list domains). -/
def reachableOfSizeTwo (ctx : Ctx) (ct : LinearTwoCt) : Domain :=
  addD (imageD (fun x => ct.coeffs.getD 0 0 * x) (ctx.domainOf (ct.vars.getD 0 0)))
    (imageD (fun x => ct.coeffs.getD 1 0 * x) (ctx.domainOf (ct.vars.getD 1 0)))

/-- The reachable values excluded by the constraint domain
(reachable_rhs_superset intersected with the rhs complement). -/
def infeasibleOfSizeTwo (ctx : Ctx) (ct : LinearTwoCt) : Domain :=
  (reachableOfSizeTwo ctx ct).filter fun v => !memIntervals ct.rhs v

/-- Translation of ExpandSomeLinearOfSizeTwo (cp_model_expand.cc:1586).  The
first returned component tells whether the constraint was cleared. -/
def ExpandSomeLinearOfSizeTwo (ct : LinearTwoCt) (ctx : Ctx) : Bool × Ctx :=
  if ct.vars.length ≠ 2 then (false, ctx)
  else
    let var1 := ct.vars.getD 0 0
    let var2 := ct.vars.getD 1 0
    if ctx.isFixedVar var1 ∨ ctx.isFixedVar var2 then (false, ctx)
    else
      let infeasible := infeasibleOfSizeTwo ctx ct
      if infeasible.length ≠ 1 then (false, ctx)
      else
        let cte := infeasible.headD 0
        match solveDiophantine (ct.coeffs.getD 0 0) (ct.coeffs.getD 1 0) cte with
        | none => (true, ctx)
        | some (a, b, x0, y0) =>
          let reduced := paramRange (ctx.domainOf var1) (ctx.domainOf var2) a b x0 y0
          if reduced.length > 16 then (false, ctx)
          else
            let size1 := (ctx.domainOf var1).length
            let size2 := (ctx.domainOf var2).length
            if !(reduced.all fun z =>
                ctx.hasVarValueEncoding var1 (x0 + b * z) && decide (size1 ≠ 2) &&
                ctx.hasVarValueEncoding var2 (y0 - a * z) && decide (size2 ≠ 2)) then
              (false, ctx)
            else
              let ctx2 := reduced.foldl
                (fun c z =>
                  let g1 := c.getOrCreateVarValueEncoding var1 (x0 + b * z)
                  let g2 := g1.2.getOrCreateVarValueEncoding var2 (y0 - a * z)
                  g2.2.addCst ⟨[], .boolOr
                    ([NegatedRef g1.1, NegatedRef g2.1] ++
                      ct.enforcement.map NegatedRef)⟩)
                ctx
              (true, ctx2)

/-- Context of the C4 counterexample: x (var 0) has the two-value domain
0..1, y (var 1) the domain 0..4; all encoding literals the expansion would
need already exist (variables 2..5 are their Booleans). -/
def c4BadCtx : Ctx :=
  { domains := [[0, 1], [0, 1, 2, 3, 4], [0, 1], [0, 1], [0, 1], [0, 1]]
    constraints := []
    encoding := [((0, 0), 2), ((0, 1), 3), ((1, 3), 4), ((1, 4), 5)]
    precCache := []
    unsat := false }

/-- The constraint x + y != 4 of the C4 counterexample (rhs everything except
4 over the reachable window). -/
def c4BadCt : LinearTwoCt :=
  { vars := [0, 1]
    coeffs := [1, 1]
    rhs := [(-100, 3), (5, 100)]
    enforcement := [] }

/-- Context of the C4 witness: x (var 0) over 0..5, y (var 1) over 0..4, the
four needed encoding literals present (variables 2..5). -/
def c4WCtx : Ctx :=
  { domains := [[0, 1, 2, 3, 4, 5], [0, 1, 2, 3, 4], [0, 1], [0, 1], [0, 1], [0, 1]]
    constraints := []
    encoding := [((0, 0), 2), ((0, 3), 3), ((1, 4), 4), ((1, 2), 5)]
    precCache := []
    unsat := false }

/-- The constraint 2x + 3y != 12 of the C4 witness (end-to-end scenario 5 of
the spec). -/
def c4WCt : LinearTwoCt :=
  { vars := [0, 1]
    coeffs := [2, 3]
    rhs := [(-1000, 11), (13, 1000)]
    enforcement := [] }

/-! Element expansion (ExpandElement and its three sub-cases,
cp_model_expand.cc:423, 456, 519, 552). -/

/-- An element constraint with its proto fields: vars[index] == target. -/
structure ElementCt where
  index : ℕ
  vars : List ℕ
  target : ℕ
deriving DecidableEq

/-- Appends a literal to the literal list of the constraint stored at the
given position; models the C++ pattern of keeping a pointer to a constraint
(the exactly-one or a support clause) and growing it while other constraints
are added behind it. -/
def appendLitTo (lit : ℤ) (c : Cst) : Cst :=
  match c.kind with
  | .boolOr lits => ⟨c.enforcement, .boolOr (lits ++ [lit])⟩
  | .exactlyOne lits => ⟨c.enforcement, .exactlyOne (lits ++ [lit])⟩
  | k => ⟨c.enforcement, k⟩

def appendLitAt (ctx : Ctx) (pos : ℕ) (lit : ℤ) : Ctx :=
  { ctx with constraints := ctx.constraints.modify (appendLitTo lit) pos }

/-- Allocation of one support clause (cp_model_expand.cc:478-484): add the
empty bool_or, create the target encoding literal, append its negation to
the clause; returns the target literal and the new context.  The clause
position is the constraint count before the call. -/
def supportClauseStep (tgt : ℕ) (value : ℤ) (c : Ctx) : ℤ × Ctx :=
  let pos := c.constraints.length
  let c0 := c.addCst ⟨[], .boolOr []⟩
  let g := c0.getOrCreateVarValueEncoding tgt value
  (g.1, appendLitAt g.2 pos (NegatedRef g.1))

/-- Translation of the first loop of ExpandConstantArrayElement
(cp_model_expand.cc:471-486), written as structural recursion over the index
domain values; the constant_var_values_usage hash map is modelled as a
function from values to multiplicities.  The first time a value reaches
multiplicity two, supportClauseStep runs and the clause position is
recorded. -/
def constElemPhase1 (ct : ElementCt) :
    List ℤ → Ctx → (ℤ → ℕ) → List (ℤ × ℕ) → Ctx × (ℤ → ℕ) × List (ℤ × ℕ)
  | [], c, counts, supports => (c, counts, supports)
  | v :: rest, c, counts, supports =>
    let value := c.minOfVar (ct.vars.getD v.toNat 0)
    let counts1 := fun w => if w = value then counts value + 1 else counts w
    if counts value + 1 = 2 then
      constElemPhase1 ct rest (supportClauseStep ct.target value c).2 counts1
        (supports ++ [(value, c.constraints.length)])
    else constElemPhase1 ct rest c counts1 supports

/-- Body of the second loop of ExpandConstantArrayElement
(cp_model_expand.cc:488-512) for one index value: create the index encoding
literal, append it to the exactly-one at position exPos, then either add the
implication to the target literal and append the index literal to the support
clause (multiple occurrences) or register the index literal as the target
value encoding (single occurrence, aliasing). -/
def elemVisitCore (ct : ElementCt) (supports : List (ℤ × ℕ)) (exPos : ℕ)
    (v value : ℤ) (c : Ctx) : Ctx :=
  let g := c.getOrCreateVarValueEncoding ct.index v
  let c1 := appendLitAt g.2 exPos g.1
  match supports.lookup value with
  | some pos =>
    let g2 := c1.getOrCreateVarValueEncoding ct.target value
    let c2 := g2.2.addImplication g.1 g2.1
    appendLitAt c2 pos g.1
  | none => c1.insertVarValueEncoding g.1 ct.target value

def elemVisit (ct : ElementCt) (supports : List (ℤ × ℕ)) (exPos : ℕ) (v : ℤ)
    (c : Ctx) : Ctx :=
  elemVisitCore ct supports exPos v
    ((appendLitAt (c.getOrCreateVarValueEncoding ct.index v).2 exPos
      (c.getOrCreateVarValueEncoding ct.index v).1).minOfVar
      (ct.vars.getD v.toNat 0)) c

/-- The second loop of ExpandConstantArrayElement, iterating elemVisit over
the index domain values. -/
def constElemPhase2 (ct : ElementCt) (supports : List (ℤ × ℕ)) (exPos : ℕ) :
    List ℤ → Ctx → Ctx
  | [], c => c
  | v :: rest, c => constElemPhase2 ct supports exPos rest (elemVisit ct supports exPos v c)

/-- Translation of ExpandConstantArrayElement (cp_model_expand.cc:456): the
usage counting pass with its support clauses, then the reserved exactly-one
and the per-value pass.  The first returned component records that the
constraint is cleared. -/
def ExpandConstantArrayElement (ct : ElementCt) (ctx : Ctx) : Bool × Ctx :=
  let indexDomain := ctx.domainOf ct.index
  let p1 := constElemPhase1 ct indexDomain ctx (fun _ => 0) []
  let exPos := p1.1.constraints.length
  let ctx2 := p1.1.addCst ⟨[], .exactlyOne []⟩
  (true, constElemPhase2 ct p1.2.2 exPos indexDomain ctx2)

/-- The implication loop of ExpandElementWithTargetEqualIndex
(cp_model_expand.cc:444-449). -/
def elemEqIndexLoop (ct : ElementCt) : List ℤ → Ctx → Ctx
  | [], c => c
  | v :: rest, c =>
    let var := ct.vars.getD v.toNat 0
    if c.minOfVar var = v ∧ c.maxOfVar var = v then elemEqIndexLoop ct rest c
    else
      let g := c.getOrCreateVarValueEncoding ct.index v
      elemEqIndexLoop ct rest (g.2.addImplyInDomain g.1 var [v])

/-- Translation of ExpandElementWithTargetEqualIndex
(cp_model_expand.cc:423). -/
def ExpandElementWithTargetEqualIndex (ct : ElementCt) (ctx : Ctx) : Bool × Ctx :=
  let validIndices := (ctx.domainOf ct.index).filter fun v =>
    ctx.domainContains (ct.vars.getD v.toNat 0) v
  if validIndices.length < (ctx.domainOf ct.index).length then
    let r := ctx.intersectVarDomainWith ct.index validIndices
    if !r.1 then (false, r.2.2)
    else (true, elemEqIndexLoop ct (r.2.2.domainOf ct.index) r.2.2)
  else (true, elemEqIndexLoop ct (ctx.domainOf ct.index) ctx)

/-- The per-index loop of ExpandVariableElement (cp_model_expand.cc:528-546):
exactly-one over the index literals; fixed cells become implications into the
target domain, non-fixed cells half-reified difference constraints. -/
def varElemLoop (ct : ElementCt) (exPos : ℕ) : List ℤ → Ctx → Ctx
  | [], c => c
  | v :: rest, c =>
    let var := ct.vars.getD v.toNat 0
    let varDomain := c.domainOf var
    let g := c.getOrCreateVarValueEncoding ct.index v
    let c1 := appendLitAt g.2 exPos g.1
    if varDomain.length = 1 then
      varElemLoop ct exPos rest (c1.addImplyInDomain g.1 ct.target varDomain)
    else
      varElemLoop ct exPos rest
        (c1.addCst ⟨[g.1], .linear ⟨[(var : ℤ), (ct.target : ℤ)], [1, -1], [0, 0]⟩⟩)

/-- Translation of ExpandVariableElement (cp_model_expand.cc:519). -/
def ExpandVariableElement (ct : ElementCt) (ctx : Ctx) : Bool × Ctx :=
  let exPos := ctx.constraints.length
  let ctx0 := ctx.addCst ⟨[], .exactlyOne []⟩
  (true, varElemLoop ct exPos (ctx.domainOf ct.index) ctx0)

/-- Translation of ExpandElement (cp_model_expand.cc:552): reduce the index
domain to 0..size-1, dispatch the index == target case, reduce the index
domain to the cells compatible with the target and the target domain to the
reachable union, then dispatch on whether all surviving cells are fixed. -/
def ExpandElement (ct : ElementCt) (ctx : Ctx) : Bool × Ctx :=
  let size := ct.vars.length
  let r := ctx.intersectVarDomainWith ct.index (rangeD 0 ((size : ℤ) - 1))
  if !r.1 then (false, r.2.2)
  else
    let ctx0 := r.2.2
    if ct.index = ct.target then ExpandElementWithTargetEqualIndex ct ctx0
    else
      let indexDomain := ctx0.domainOf ct.index
      let targetDomain := ctx0.domainOf ct.target
      let scan := indexDomain.foldl
        (fun (st : Bool × List ℤ × Domain) v =>
          let varDomain := ctx0.domainOf (ct.vars.getD v.toNat 0)
          if (interD varDomain targetDomain).isEmpty then st
          else
            (st.1 && (varDomain.headD 0 == varDomain.getLastD 0),
              st.2.1 ++ [v], unionD st.2.2 varDomain))
        (true, [], [])
      let step2 :=
        if scan.2.1.length < indexDomain.length then
          let r2 := ctx0.intersectVarDomainWith ct.index scan.2.1
          (r2.1, r2.2.2)
        else (true, ctx0)
      if !step2.1 then (false, step2.2)
      else
        let r3 := step2.2.intersectVarDomainWith ct.target scan.2.2
        if !r3.1 then (false, r3.2.2)
        else
          if scan.1 then ExpandConstantArrayElement ct r3.2.2
          else ExpandVariableElement ct r3.2.2

/-- Context of the C7 concrete scenario: index var 0 over 0..2, target var 1
over 7..9, array vars 2, 3, 4 fixed to 7, 7, 9. -/
def c7Ctx : Ctx :=
  { domains := [[0, 1, 2], [7, 8, 9], [7], [7], [9]]
    constraints := []
    encoding := []
    precCache := []
    unsat := false }

/-- The element constraint of the C7 scenario over the constant array
[7, 7, 9]. -/
def c7Ct : ElementCt :=
  { index := 0
    vars := [2, 3, 4]
    target := 1 }

/-- The constant array value selected by index value v (the MinOf of the
fixed cell), as read in both loops of ExpandConstantArrayElement. -/
def elemImage (ct : ElementCt) (ctx : Ctx) (v : ℤ) : ℤ :=
  ctx.minOfVar (ct.vars.getD v.toNat 0)

/-- Number of index values of S mapped to a given array value. -/
def countImg (img : ℤ → ℤ) (S : List ℤ) (value : ℤ) : ℕ :=
  (S.filter fun w => img w == value).length

/-- A context evolution that only appends variables and encoding cache
entries; every step of the element expansion loops is of this shape. -/
def Ctx.Grows (c c' : Ctx) : Prop :=
  (∃ t, c'.domains = c.domains ++ t) ∧ ∃ e, c'.encoding = c.encoding ++ e

/-- Expected result of the C7 scenario: target domain reduced to [7, 9],
fresh Booleans 5 (target==7), 6, 7, 8 (index==0, 1, 2), the support clause
(index==0) or (index==1) or not (target==7), the exactly-one over the index
literals, the two implications into (target==7), and the encoding cache
aliasing (target, 9) to literal 8 == (index==2). -/
def c7Expanded : Ctx :=
  { domains := [[0, 1, 2], [7, 9], [7], [7], [9], [0, 1], [0, 1], [0, 1], [0, 1]]
    constraints := [⟨[], .boolOr [-6, 6, 7]⟩, ⟨[], .exactlyOne [6, 7, 8]⟩,
      ⟨[], .implication 6 5⟩, ⟨[], .implication 7 5⟩]
    encoding := [((1, 7), 5), ((0, 0), 6), ((0, 1), 7), ((0, 2), 8), ((1, 9), 8)]
    precCache := []
    unsat := false }

/-- The C7 context as it stands when ExpandConstantArrayElement is reached:
ExpandElement has already reduced the target domain to the reachable values
[7, 9]. -/
def c7PostCtx : Ctx :=
  { domains := [[0, 1, 2], [7, 9], [7], [7], [9]]
    constraints := []
    encoding := []
    precCache := []
    unsat := false }

/-- Invariant tying the support map of ExpandConstantArrayElement to the
context: a value is in the map iff its multiplicity reached two; every entry
points to a well-formed support clause holding the negated target-encoding
literal; entries have pairwise distinct positions; values outside the map
have no target encoding. -/
def Phase1Inv (ct : ElementCt) (base : ℤ → ℕ) (c : Ctx)
    (supports : List (ℤ × ℕ)) : Prop :=
  (∀ value, ((supports.lookup value).isSome) ↔ 2 ≤ base value) ∧
  (∀ value pos, supports.lookup value = some pos →
    pos < c.constraints.length ∧
    ∃ tlit, c.encoding.lookup (ct.target, value) = some tlit ∧
      c.constraints[pos]? = some ⟨[], .boolOr [NegatedRef tlit]⟩) ∧
  (∀ w1 p w2, supports.lookup w1 = some p → supports.lookup w2 = some p →
    w1 = w2) ∧
  (∀ value, supports.lookup value = none →
    c.encoding.lookup (ct.target, value) = none)

/-! Complex-rhs linear expansion (ExpandComplexLinearConstraint,
cp_model_expand.cc:1682) and assignment semantics for the produced model. -/

/-- The interval pairs of a flattened proto domain. -/
def intervalPairs : List ℤ → List (ℤ × ℤ)
  | lb :: ub :: rest => (lb, ub) :: intervalPairs rest
  | _ => []

/-- All values of a flattened proto domain, for the slack variable domain of
the integer encoding. -/
def flatIntervals : List ℤ → List ℤ
  | lb :: ub :: rest => rangeD lb ub ++ flatIntervals rest
  | _ => []

/-- The per-interval loop of the Boolean encoding
(cp_model_expand.cc:1725-1745), general clause case: create a fresh
subdomain Boolean, append it to the bool_or at clausePos, and add the copy
of the constraint enforced by it with the single sub-interval domain;
collects the domain literals. -/
def complexLinLoop (lvars lcoeffs : List ℤ) (clausePos : ℕ) :
    List (ℤ × ℤ) → Ctx → List ℤ → Ctx × List ℤ
  | [], c, domLits => (c, domLits)
  | (lb, ub) :: rest, c, domLits =>
    let nb := c.newBoolVar
    let c1 := appendLitAt nb.2 clausePos (nb.1 : ℤ)
    let c2 := c1.addCst ⟨[(nb.1 : ℤ)], .linear ⟨lvars, lcoeffs, [lb, ub]⟩⟩
    complexLinLoop lvars lcoeffs clausePos rest c2 (domLits ++ [(nb.1 : ℤ)])

/-- The no-enforcement two-interval special case of the Boolean encoding
(cp_model_expand.cc:1709-1712, 1734-1737): a single Boolean selects between
the two sub-intervals. -/
def complexLinTwoChoices (lvars lcoeffs : List ℤ) (d : List ℤ) (c : Ctx) :
    Ctx × List ℤ :=
  let sb := c.newBoolVar
  let c1 := sb.2.addCst
    ⟨[(sb.1 : ℤ)], .linear ⟨lvars, lcoeffs, [d.getD 0 0, d.getD 1 0]⟩⟩
  let c2 := c1.addCst ⟨[NegatedRef (sb.1 : ℤ)],
    .linear ⟨lvars, lcoeffs, [d.getD 2 0, d.getD 3 0]⟩⟩
  (c2, [(sb.1 : ℤ)])

/-- The enumerate_all_solutions linking (cp_model_expand.cc:1748-1770):
derive or create the linear_is_enforced literal, maintain it with a clause
and implications, and force every domain literal to false when the linear is
not enforced. -/
def complexLinEnumLink (enf domLits : List ℤ) (c : Ctx) : Ctx :=
  if enf.length = 1 then
    domLits.foldl
      (fun cc lit => cc.addImplication (NegatedRef (enf.getD 0 0))
        (NegatedRef lit)) c
  else
    let nb := c.newBoolVar
    let mPos := nb.2.constraints.length
    let c1 := nb.2.addCst ⟨[], .boolOr []⟩
    let c2 := enf.foldl
      (fun cc e => appendLitAt
        (cc.addImplication (NegatedRef e) (NegatedRef (nb.1 : ℤ)))
        mPos (NegatedRef e)) c1
    let c3 := appendLitAt c2 mPos (nb.1 : ℤ)
    domLits.foldl
      (fun cc lit => cc.addImplication (NegatedRef (nb.1 : ℤ))
        (NegatedRef lit)) c3

/-- Translation of ExpandComplexLinearConstraint (cp_model_expand.cc:1682):
skip domains of at most one interval and single-variable linears; integer
encoding appends a slack variable over the rhs domain and rewrites the rhs
to [0, 0]; Boolean encoding clears the enforcement, emits the clause over
the negated enforcement literals and the subdomain Booleans (or the single
Boolean special case) with one enforced copy per sub-interval, and links the
literals when enumerating all solutions.  A none first component means the
original constraint was cleared. -/
def ExpandComplexLinearConstraint (encodeWithInteger enumerateAll : Bool)
    (enf : List ℤ) (pl : LinPayload) (ctx : Ctx) : Option Cst × Ctx :=
  if pl.ldomain.length ≤ 2 then (some ⟨enf, .linear pl⟩, ctx)
  else if pl.lvars.length = 1 then (some ⟨enf, .linear pl⟩, ctx)
  else if encodeWithInteger then
    let slack := ctx.newVar (sortDedup (flatIntervals pl.ldomain))
    (some ⟨enf, .linear ⟨pl.lvars ++ [(slack.1 : ℤ)],
      pl.lcoeffs ++ [-1], [0, 0]⟩⟩, slack.2)
  else if enf.isEmpty && pl.ldomain.length = 4 then
    (none, (complexLinTwoChoices pl.lvars pl.lcoeffs pl.ldomain ctx).1)
  else
    let clausePos := ctx.constraints.length
    let c1 := ctx.addCst ⟨[], .boolOr (enf.map NegatedRef)⟩
    let r := complexLinLoop pl.lvars pl.lcoeffs clausePos
      (intervalPairs pl.ldomain) c1 []
    if enumerateAll && !enf.isEmpty then (none, complexLinEnumLink enf r.2 r.1)
    else (none, r.1)

/-- Truth of a Boolean literal under an assignment (positive reference means
the variable is 1, negated reference means it is 0). -/
def litHolds (σ : ℕ → ℤ) (l : ℤ) : Bool :=
  if 0 ≤ l then σ l.toNat == 1 else σ (NegatedRef l).toNat == 0

/-- Value of a possibly negated integer variable reference. -/
def evalRef (σ : ℕ → ℤ) (r : ℤ) : ℤ :=
  if 0 ≤ r then σ r.toNat else -σ (NegatedRef r).toNat

/-- Value of an affine expression over positive variables. -/
def evalExpr (σ : ℕ → ℤ) (e : LinearExpr) : ℤ :=
  (e.vars.zip e.coeffs).foldl (fun acc vc => acc + vc.2 * σ vc.1) e.offset

/-- Membership in a flattened interval-list domain. -/
def memFlat (x : ℤ) : List ℤ → Bool
  | lb :: ub :: rest => (decide (lb ≤ x) && decide (x ≤ ub)) || memFlat x rest
  | _ => false

/-- Satisfaction of one constraint payload under an assignment. -/
def kindHolds (σ : ℕ → ℤ) : CstKind → Bool
  | .boolOr lits => lits.any (litHolds σ)
  | .boolAnd lits => lits.all (litHolds σ)
  | .atMostOne lits => (lits.countP (litHolds σ)) ≤ 1
  | .exactlyOne lits => (lits.countP (litHolds σ)) == 1
  | .linear pl => memFlat
      ((pl.lvars.zip pl.lcoeffs).foldl
        (fun acc vc => acc + vc.2 * evalRef σ vc.1) 0) pl.ldomain
  | .intDiv target exprs => evalExpr σ target ==
      (exprs.getD 0 ⟨[], [], 0⟩ |> evalExpr σ).tdiv
        (exprs.getD 1 ⟨[], [], 0⟩ |> evalExpr σ)
  | .intProd target exprs => evalExpr σ target ==
      (exprs.map (evalExpr σ)).prod
  | .implication a b => !litHolds σ a || litHolds σ b
  | .implyInDomain lit v d => !litHolds σ lit || d.contains (σ v)
  | .boolEq a b => litHolds σ a == litHolds σ b

/-- Satisfaction of an enforced constraint: the payload must hold whenever
all enforcement literals hold. -/
def cstHolds (σ : ℕ → ℤ) (c : Cst) : Bool :=
  !(c.enforcement.all (litHolds σ)) || kindHolds σ c.kind

/-- An assignment solves a context when every variable takes a value of its
domain and every constraint is satisfied. -/
def modelHolds (σ : ℕ → ℤ) (ctx : Ctx) : Bool :=
  (List.range ctx.numVars).all (fun v => (ctx.domainOf v).contains (σ v)) &&
    ctx.constraints.all (cstHolds σ)

/-- The complex-rhs linear of the C1 failing instance: x + y in [0,0] or
[2,2], enforced by the literal of Boolean variable 0, with x variable 1 and
y variable 2. -/
def c1Pl : LinPayload := ⟨[1, 2], [1, 1], [0, 0, 2, 2]⟩

/-- Context of the C1 failing instance: e Boolean, x and y over 0..2. -/
def c1Ctx : Ctx :=
  { domains := [[0, 1], [0, 1, 2], [0, 1, 2]]
    constraints := []
    encoding := []
    precCache := []
    unsat := false }

/-- Expected expansion of the C1 instance: fresh subdomain Booleans 3 and 4,
the clause not e or l0 or l1, and the two half-reified interval copies. -/
def c1Expanded : Ctx :=
  { domains := [[0, 1], [0, 1, 2], [0, 1, 2], [0, 1], [0, 1]]
    constraints := [⟨[], .boolOr [-1, 3, 4]⟩,
      ⟨[3], .linear ⟨[1, 2], [1, 1], [0, 0]⟩⟩,
      ⟨[4], .linear ⟨[1, 2], [1, 1], [2, 2]⟩⟩]
    encoding := []
    precCache := []
    unsat := false }

/-- First witness assignment: e = 0, x = y = 0, subdomain Boolean l0 = 1. -/
def c1Sigma1 : ℕ → ℤ := fun v => [0, 0, 0, 1, 0].getD v 0

/-- Second witness assignment: identical on the original variables but with
the subdomain Boolean l0 = 0. -/
def c1Sigma2 : ℕ → ℤ := fun _ => 0

/-- Postcondition of ExpandSomeLinearOfSizeTwo asserted by claim C4
(amended): the constraint is cleared and exactly one clause per forbidden
pair (x, y) — both values in their domains and the linear form equal to the
excluded constant — is emitted, each clause being the negated encoding
literals of the two values followed by the negated enforcement literals. -/
def C4Post (ct : LinearTwoCt) (ctx : Ctx) (cte a b x0 y0 : ℤ) : Prop :=
  (ExpandSomeLinearOfSizeTwo ct ctx).1 = true ∧
  (ExpandSomeLinearOfSizeTwo ct ctx).2 =
    ctx.withConstraints (ctx.constraints ++
        (paramRange (ctx.domainOf (ct.vars.getD 0 0)) (ctx.domainOf (ct.vars.getD 1 0))
          a b x0 y0).map fun z =>
          ⟨[], .boolOr
            ([NegatedRef ((ctx.encoding.lookup (ct.vars.getD 0 0, x0 + b * z)).getD 0),
              NegatedRef ((ctx.encoding.lookup (ct.vars.getD 1 0, y0 - a * z)).getD 0)] ++
              ct.enforcement.map NegatedRef)⟩) ∧
  (∀ z ∈ paramRange (ctx.domainOf (ct.vars.getD 0 0))
      (ctx.domainOf (ct.vars.getD 1 0)) a b x0 y0,
    (x0 + b * z) ∈ ctx.domainOf (ct.vars.getD 0 0) ∧
    (y0 - a * z) ∈ ctx.domainOf (ct.vars.getD 1 0) ∧
    ct.coeffs.getD 0 0 * (x0 + b * z) + ct.coeffs.getD 1 0 * (y0 - a * z) = cte) ∧
  (∀ x y : ℤ, x ∈ ctx.domainOf (ct.vars.getD 0 0) →
    y ∈ ctx.domainOf (ct.vars.getD 1 0) →
    ct.coeffs.getD 0 0 * x + ct.coeffs.getD 1 0 * y = cte →
    ∃ z ∈ paramRange (ctx.domainOf (ct.vars.getD 0 0))
      (ctx.domainOf (ct.vars.getD 1 0)) a b x0 y0,
      x = x0 + b * z ∧ y = y0 - a * z) ∧
  (paramRange (ctx.domainOf (ct.vars.getD 0 0)) (ctx.domainOf (ct.vars.getD 1 0))
    a b x0 y0).Nodup

/-- Postcondition of ExpandIntMod asserted by claim C5 (amended): the target
domain is tightened to the positive-modulo image, then exactly three
constraints are appended — q == a div b over the fresh variable q (index
numVars of the incoming context) with the positive-division image domain,
p == q * b over a fresh variable p, and the linear a - p - target == 0 — each
carrying exactly the original enforcement literals, and the int_mod is cleared
(first component true). -/
def C5Post (ct : IntModCt) (ctx : Ctx) : Prop :=
  ∃ pdom : Domain,
    (ExpandIntMod ct ctx).1 = true ∧
    (ExpandIntMod ct ctx).2.domains =
      (((ctx.intersectExprDomainWith ct.target
        (positiveModuloImage (ctx.domainSuperSetOf ct.expr)
          (ctx.domainSuperSetOf ct.modExpr))).2.domains) ++
        [positiveDivisionImage
          (((ctx.intersectExprDomainWith ct.target
            (positiveModuloImage (ctx.domainSuperSetOf ct.expr)
              (ctx.domainSuperSetOf ct.modExpr))).2).domainSuperSetOf ct.expr)
          (((ctx.intersectExprDomainWith ct.target
            (positiveModuloImage (ctx.domainSuperSetOf ct.expr)
              (ctx.domainSuperSetOf ct.modExpr))).2).domainSuperSetOf ct.modExpr)]) ++
        [pdom] ∧
    (ExpandIntMod ct ctx).2.constraints = ctx.constraints ++
      [⟨ct.enforcement, .intDiv ⟨[ctx.numVars], [1], 0⟩ [ct.expr, ct.modExpr]⟩,
       ⟨ct.enforcement, .intProd ⟨[ctx.numVars + 1], [1], 0⟩
          [⟨[ctx.numVars], [1], 0⟩, ct.modExpr]⟩,
       ⟨ct.enforcement, .linear (addExprToLinear ct.target (-1)
          (addExprToLinear ⟨[ctx.numVars + 1], [1], 0⟩ (-1)
            (addExprToLinear ct.expr 1 ⟨[], [], [0, 0]⟩)))⟩]

/-- Concrete context for the C5 witness: target var 0 over 0..2, a var 1 over
0..5, b var 2 over the non-fixed domain 2..3, enforcement literal var 3. -/
def c5WCtx : Ctx :=
  { domains := [[0, 1, 2], [0, 1, 2, 3, 4, 5], [2, 3], [0, 1]]
    constraints := []
    encoding := []
    precCache := []
    unsat := false }

/-- The int_mod constraint of the C5 witness instance. -/
def c5WCt : IntModCt :=
  { target := ⟨[0], [1], 0⟩
    expr := ⟨[1], [1], 0⟩
    modExpr := ⟨[2], [1], 0⟩
    enforcement := [3] }

/-- Concrete int_prod instance for claim C6: p = x * y with x, y Boolean. -/
def c6Ctx : Ctx :=
  { domains := [[0, 1], [0, 1], [0, 1]]
    constraints := []
    encoding := []
    precCache := []
    unsat := false }

/-- The constraint p = x * y where both factors are Boolean literals. -/
def c6Ct : IntProdCt :=
  { target := ⟨[2], [1], 0⟩
    exprs := [⟨[0], [1], 0⟩, ⟨[1], [1], 0⟩]
    enforcement := [] }

/-- Claim C6.  The property says an int_prod whose two factors are both
literals is left unchanged by pass 1, deferring to a later presolve stage
(which is also what the source comment at cp_model_expand.cc:305 announces).
The code disagrees: with both factors literals the else-if branch
(b_is_literal) fires, so the constraint is expanded through
ExpandIntProdWithBoolean with the second factor as the controlling literal and
is cleared.  This theorem evaluates the translated code on the concrete
instance p = x * y with x and y Boolean: the constraint is expanded (first
component true, meaning cleared) and the two half-reified linear constraints
are emitted. -/
theorem c6_int_prod_both_literals_is_expanded :
    ExpandIntProd c6Ct c6Ctx =
      (true,
        { c6Ctx with
            constraints :=
              [⟨[1], .linear ⟨[0, 2], [1, -1], [0, 0]⟩⟩,
               ⟨[-2], .linear ⟨[2], [1], [0, 0]⟩⟩] }) := by
  decide

/-- Intersecting an expression domain never changes the number of variables. -/
theorem numVars_intersectExprDomainWith (ctx : Ctx) (e : LinearExpr) (d : Domain) :
    (ctx.intersectExprDomainWith e d).2.numVars = ctx.numVars := by
  unfold Ctx.intersectExprDomainWith
  split
  · dsimp only
    split <;> simp [Ctx.numVars, Ctx.setDomain, Ctx.notifyUnsat]
  · split <;> simp [Ctx.numVars, Ctx.notifyUnsat]
  · rfl

/-- Intersecting an expression domain never changes the constraint list. -/
theorem constraints_intersectExprDomainWith (ctx : Ctx) (e : LinearExpr) (d : Domain) :
    (ctx.intersectExprDomainWith e d).2.constraints = ctx.constraints := by
  unfold Ctx.intersectExprDomainWith
  split
  · dsimp only
    split <;> simp [Ctx.setDomain, Ctx.notifyUnsat]
  · split <;> simp [Ctx.notifyUnsat]
  · rfl

/-- Claim C5 counterexample.  The claim quantifies over every int_mod whose
modulus is not fixed and asserts that three constraints are added and the
original is cleared.  On this instance the tightening of the target domain to
the positive-modulo image empties it: ExpandIntMod declares the model
infeasible and returns without adding any constraint and without clearing the
int_mod (first component false). -/
theorem c5_counterexample_empty_tightening :
    (c5BadCtx.isFixedExpr c5BadCt.modExpr = false) ∧
    (ExpandIntMod c5BadCt c5BadCtx).1 = false ∧
    (ExpandIntMod c5BadCt c5BadCtx).2.constraints = c5BadCtx.constraints ∧
    (ExpandIntMod c5BadCt c5BadCtx).2.numVars = c5BadCtx.numVars ∧
    (ExpandIntMod c5BadCt c5BadCtx).2.unsat = true := by
  decide

/-- Claim C5, amended: provided the tightening of the target domain to the
positive-modulo image does not empty it (otherwise the model is declared
infeasible and nothing is added), ExpandIntMod tightens target, then adds
exactly three constraints — q == a div b over the fresh variable q carrying the
positive-division image domain, p == q * b over a fresh variable p, and the
linear a - p - target == 0 — each carrying exactly the original enforcement
literals, and clears the int_mod. -/
theorem c5_int_mod_expansion (ct : IntModCt) (ctx : Ctx)
    (hmod : ctx.isFixedExpr ct.modExpr = false)
    (htight : (ctx.intersectExprDomainWith ct.target
        (positiveModuloImage (ctx.domainSuperSetOf ct.expr)
          (ctx.domainSuperSetOf ct.modExpr))).1 = true) :
    C5Post ct ctx := by
  have hlen : (ctx.intersectExprDomainWith ct.target
      (positiveModuloImage (ctx.domainSuperSetOf ct.expr)
        (ctx.domainSuperSetOf ct.modExpr))).2.numVars = ctx.numVars :=
    numVars_intersectExprDomainWith ctx ct.target _
  unfold C5Post
  simp only [ExpandIntMod, hmod, htight, Bool.not_true, Bool.false_eq_true, if_false]
  refine ⟨_, trivial, rfl, ?_⟩
  simp only [Ctx.addCst, Ctx.newVar]
  rw [← hlen]
  simp [Ctx.numVars, List.append_assoc]
  exact constraints_intersectExprDomainWith ctx ct.target _

/-- Witness for c5_int_mod_expansion at the concrete instance c5WCt, c5WCtx. -/
theorem c5_int_mod_expansion_witness :
    (c5WCtx.isFixedExpr c5WCt.modExpr = false) ∧
    ((c5WCtx.intersectExprDomainWith c5WCt.target
        (positiveModuloImage (c5WCtx.domainSuperSetOf c5WCt.expr)
          (c5WCtx.domainSuperSetOf c5WCt.modExpr))).1 = true) ∧
    C5Post c5WCt c5WCtx :=
  ⟨by decide, by decide, c5_int_mod_expansion c5WCt c5WCtx (by decide) (by decide)⟩

/-- Claim C8: for every reservoir constraint whose min level exceeds its max
level, ExpandReservoir declares the model infeasible (NotifyThatModelIsUnsat)
and returns without adding any constraint, variable, literal or cache entry
and without clearing the reservoir constraint: the result is exactly the
incoming context with only the infeasibility flag raised, and the first
component false records that the constraint was not expanded or cleared. -/
theorem c8_reservoir_empty_level_domain (trueLit : ℤ) (ct : ReservoirCt) (ctx : Ctx)
    (h : ct.minLevel > ct.maxLevel) :
    ExpandReservoir trueLit ct ctx = (false, { ctx with unsat := true }) := by
  unfold ExpandReservoir
  rw [if_pos h]
  rfl

/-- Witness for c8_reservoir_empty_level_domain at a concrete instance with
min level 2 and max level 1. -/
theorem c8_reservoir_empty_level_domain_witness :
    ((2 : ℤ) > 1) ∧
    ExpandReservoir 0 ⟨[⟨[0], [1], 0⟩], [⟨[], [], 1⟩], [], 2, 1⟩
        { domains := [[0, 1, 2, 3]], constraints := [], encoding := [],
          precCache := [], unsat := false } =
      (false,
        { domains := [[0, 1, 2, 3]], constraints := [], encoding := [],
          precCache := [], unsat := true }) :=
  ⟨by decide,
   c8_reservoir_empty_level_domain 0 ⟨[⟨[0], [1], 0⟩], [⟨[], [], 1⟩], [], 2, 1⟩
     { domains := [[0, 1, 2, 3]], constraints := [], encoding := [],
       precCache := [], unsat := false } (by decide)⟩

/-- Claim C9: ExpandCpModel is idempotent.  Whatever the two per-family
dispatch passes (the body) do, once a call has completed and marked the state
expanded through NotifyThatModelIsExpanded, a second call returns immediately
through the ModelIsExpanded() guard and leaves the state — working model,
domains and context — entirely unchanged. -/
theorem c9_expand_cp_model_idempotent (body : OrchState → OrchState) (s : OrchState)
    (h : (ExpandCpModelWith body s).expanded = true) :
    ExpandCpModelWith body (ExpandCpModelWith body s) = ExpandCpModelWith body s := by
  generalize hs : ExpandCpModelWith body s = s1 at h ⊢
  unfold ExpandCpModelWith
  split_ifs <;> rfl

/-- Witness for c9_expand_cp_model_idempotent: the identity body on the empty
state completes and marks the state expanded; the second call is the
identity. -/
theorem c9_expand_cp_model_idempotent_witness :
    ((ExpandCpModelWith id c9S0).expanded = true) ∧
    ExpandCpModelWith id (ExpandCpModelWith id c9S0) = ExpandCpModelWith id c9S0 :=
  ⟨by decide, c9_expand_cp_model_idempotent id c9S0 (by decide)⟩

/-- Membership in an ordered insertion. -/
theorem mem_insertSorted (v x : ℤ) (l : List ℤ) :
    x ∈ insertSorted v l ↔ x = v ∨ x ∈ l := by
  induction l with
  | nil => simp [insertSorted]
  | cons a as ih =>
    unfold insertSorted
    split_ifs with h1 h2
    · simp
    · subst h2
      simp only [List.mem_cons]
      tauto
    · simp only [List.mem_cons, ih]
      tauto

/-- Membership is preserved by sortDedup. -/
theorem mem_sortDedup (x : ℤ) (l : List ℤ) : x ∈ sortDedup l ↔ x ∈ l := by
  induction l with
  | nil => simp [sortDedup]
  | cons a as ih =>
    show x ∈ insertSorted a (sortDedup as) ↔ _
    rw [mem_insertSorted, ih]
    simp

/-- Membership in a domain intersection. -/
theorem mem_interD (x : ℤ) (d e : Domain) : x ∈ interD d e ↔ x ∈ d ∧ x ∈ e := by
  simp [interD, List.mem_filter, List.elem_iff]

/-- The light/heavy choice of one automaton step, characterized: light exactly
when the surviving rows outnumber the three encodings combined and all three
encodings are non-empty. -/
theorem chooseStepDecision_eq_light_iff (nt a b c : ℕ) :
    chooseStepDecision nt a b c = .light ↔
      (a + b + c < nt ∧ 0 < a ∧ 0 < b ∧ 0 < c) := by
  unfold chooseStepDecision
  split_ifs with h
  · refine ⟨fun _ => ⟨h.1, ?_, ?_, ?_⟩, fun _ => rfl⟩ <;> omega
  · constructor
    · intro hh
      exact absurd hh (by decide)
    · intro hc
      exact absurd ⟨hc.1, by omega, by omega, by omega⟩ h

/-- Claim C3, amended: at every automaton time step where more than one
transition row survives (and every surviving label lies in the step variable
domain, as the row filter of ExpandAutomaton guarantees), the step completes
and chooses the light encoding exactly when the number of surviving rows is
strictly greater than the number of in-state, transition-label and out-state
encoding entries combined AND all three encodings are non-empty; otherwise the
heavy tuple-literal encoding is used. -/
theorem c3_light_encoding_choice (ctx : Ctx) (inEnc : List (ℤ × ℤ)) (varRef : ℕ)
    (tuples : List (ℤ × ℤ × ℤ))
    (hrows : 1 < tuples.length)
    (hdom : ∀ t ∈ tuples, ctx.domainContains varRef t.2.1 = true) :
    ∃ i : StepInfo,
      (automatonStep ctx inEnc varRef tuples).getInfo = some i ∧
      i.numTuples = tuples.length ∧
      (i.decision = .light ↔
        (i.inSize + i.encSize + i.outSize < i.numTuples ∧
          0 < i.inSize ∧ 0 < i.encSize ∧ 0 < i.outSize)) := by
  obtain ⟨t0, ht0⟩ : ∃ t, t ∈ tuples := by
    cases tuples with
    | nil => simp at hrows
    | cons a l => exact ⟨a, List.mem_cons_self a l⟩
  have hmem : t0.2.1 ∈ interD (ctx.domainOf varRef)
      (sortDedup (tuples.map fun t => t.2.1)) := by
    rw [mem_interD, mem_sortDedup]
    refine ⟨?_, List.mem_map_of_mem _ ht0⟩
    have := hdom t0 ht0
    simpa [Ctx.domainContains, List.elem_iff] using this
  have hr : (ctx.intersectVarDomainWith varRef
      (sortDedup (tuples.map fun t => t.2.1))).1 = true := by
    unfold Ctx.intersectVarDomainWith
    rw [if_neg]
    · simp
    · intro hcontra
      rw [List.isEmpty_iff] at hcontra
      exact List.ne_nil_of_mem hmem hcontra
  unfold automatonStep
  rw [if_neg (by omega : ¬ tuples.length = 1)]
  simp only [hr, Bool.not_true, Bool.false_eq_true, if_false]
  exact ⟨_, rfl, rfl, chooseStepDecision_eq_light_iff _ _ _ _⟩

/-- Witness for c3_light_encoding_choice at the time-0 data of the concrete
automaton c3Proto. -/
theorem c3_light_encoding_choice_witness :
    (1 < ([(0, 1, 1), (0, 1, 2), (0, 1, 3), (0, 2, 1), (0, 2, 2), (0, 3, 1),
      (0, 3, 3)] : List (ℤ × ℤ × ℤ)).length) ∧
    (∃ i : StepInfo,
      (automatonStep c3Ctx [] 0
        [(0, 1, 1), (0, 1, 2), (0, 1, 3), (0, 2, 1), (0, 2, 2), (0, 3, 1),
         (0, 3, 3)]).getInfo = some i ∧
      i.numTuples = ([(0, 1, 1), (0, 1, 2), (0, 1, 3), (0, 2, 1), (0, 2, 2),
        (0, 3, 1), (0, 3, 3)] : List (ℤ × ℤ × ℤ)).length ∧
      (i.decision = .light ↔
        (i.inSize + i.encSize + i.outSize < i.numTuples ∧
          0 < i.inSize ∧ 0 < i.encSize ∧ 0 < i.outSize))) :=
  ⟨by decide,
   c3_light_encoding_choice c3Ctx [] 0
     [(0, 1, 1), (0, 1, 2), (0, 1, 3), (0, 2, 1), (0, 2, 2), (0, 3, 1), (0, 3, 3)]
     (by decide) (by decide)⟩

/-- Claim C3 counterexample.  The claim as stated says the light encoding is
chosen exactly when the surviving rows outnumber the sum of the three encoding
sizes.  On the concrete automaton c3Proto, time step 0 has 7 surviving rows
against 0 + 3 + 3 = 6 encoding entries, yet ExpandAutomaton uses the heavy
encoding, because the in-state encoding is empty at time 0 (the initial state
is unique) and the light encoding also requires all three encodings to be
non-empty. -/
theorem c3_counterexample_time_zero_heavy :
    (ExpandAutomaton c3Proto c3Ctx).trace =
      [⟨7, 0, 3, 3, .heavy⟩, ⟨3, 3, 0, 0, .heavy⟩] ∧ 0 + 3 + 3 < 7 := by
  decide

/-- Claim C10: for an automaton constraint with no variables, ExpandAutomaton
clears the constraint as trivially feasible exactly when the starting state is
one of the final states and otherwise declares the model infeasible, touching
nothing else; and for an automaton with at least one variable but no
transition, it always declares the model infeasible. -/
theorem c10_automaton_degenerate (proto : AutomatonCt) (ctx : Ctx) :
    (proto.vars = [] →
      (proto.finalStates.contains proto.startingState = true →
        ExpandAutomaton proto ctx = ⟨ctx, true, []⟩) ∧
      (proto.finalStates.contains proto.startingState = false →
        ExpandAutomaton proto ctx = ⟨ctx.notifyUnsat, false, []⟩)) ∧
    (proto.vars ≠ [] → proto.transLabel = [] →
      ExpandAutomaton proto ctx = ⟨ctx.notifyUnsat, false, []⟩) := by
  constructor
  · intro hv
    constructor
    · intro hf
      unfold ExpandAutomaton
      rw [if_pos (by simp [hv]), if_pos hf]
    · intro hf
      unfold ExpandAutomaton
      rw [if_pos (by simp [hv]), if_neg (by rw [hf]; exact Bool.false_ne_true)]
  · intro hv ht
    unfold ExpandAutomaton
    rw [if_neg (by simp [hv]), if_pos (by simp [ht])]

/-- Witness for c10_automaton_degenerate on three concrete degenerate
automata: empty with the start final, empty with the start not final, and
one-variable with no transition. -/
theorem c10_automaton_degenerate_witness :
    ExpandAutomaton ⟨[], 0, [0], [], [], []⟩ c3Ctx = ⟨c3Ctx, true, []⟩ ∧
    ExpandAutomaton ⟨[], 0, [1], [], [], []⟩ c3Ctx = ⟨c3Ctx.notifyUnsat, false, []⟩ ∧
    ExpandAutomaton ⟨[0], 0, [0], [], [], []⟩ c3Ctx = ⟨c3Ctx.notifyUnsat, false, []⟩ :=
  ⟨((c10_automaton_degenerate ⟨[], 0, [0], [], [], []⟩ c3Ctx).1 rfl).1 (by decide),
   ((c10_automaton_degenerate ⟨[], 0, [1], [], [], []⟩ c3Ctx).1 rfl).2 (by decide),
   (c10_automaton_degenerate ⟨[0], 0, [0], [], [], []⟩ c3Ctx).2 (by decide) rfl⟩

/-- Claim C2.  The claim says pass 2 expands an all-different if and only if
some variable is domain-used (with the size condition) and keeps it if and
only if some variable is bounds-used.  The code cannot implement this: the
result accumulators of ScanModelAndDecideAllDiffExpansion are shadowed by the
loop-local redeclarations (cp_model_expand.cc:1821-1822), so the scanner
returns expand = false and keep = false on EVERY input (first conjunct).  On
the concrete instance c2Inp — an all_diff whose two variables appear only in
an interval constraint — the scanner itself classifies both variables as
bounds-used in its cache (second conjunct), yet the decision of
MaybeExpandAllDiff expands the constraint (size heuristic alone, since
keep_after_expansion is always false) and does not keep it (third conjunct),
while the claim requires no expansion (no domain-used variable) and keeping
(bounds-used variables). -/
theorem c2_alldiff_scanner_flags_shadowed :
    (∀ (inp : ScanInput) (ctx : Ctx) (caches : ScanCaches),
      (ScanModelAndDecideAllDiffExpansion inp ctx caches).1 = (false, false)) ∧
    (ScanModelAndDecideAllDiffExpansion c2Inp c2Ctx ⟨[], [], []⟩).2.boundsUsed = [0, 1] ∧
    (ScanModelAndDecideAllDiffExpansion c2Inp c2Ctx ⟨[], [], []⟩).2.domainUsed = [] ∧
    MaybeExpandAllDiffDecision false c2Inp c2Ctx ⟨[], [], []⟩ = (true, false) := by
  refine ⟨fun inp ctx caches => rfl, by decide, by decide, by decide⟩

/-- Sorted insertion preserves strict sortedness. -/
theorem sorted_insertSorted (v : ℤ) (l : List ℤ) (h : l.Sorted (· < ·)) :
    (insertSorted v l).Sorted (· < ·) := by
  induction l with
  | nil => simp [insertSorted]
  | cons a as ih =>
    rw [List.sorted_cons] at h
    unfold insertSorted
    split_ifs with h1 h2
    · rw [List.sorted_cons]
      refine ⟨?_, by rw [List.sorted_cons]; exact h⟩
      intro b hb
      rcases List.mem_cons.mp hb with rfl | hb
      · exact h1
      · exact lt_trans h1 (h.1 b hb)
    · rw [List.sorted_cons]
      exact h
    · rw [List.sorted_cons]
      refine ⟨?_, ih h.2⟩
      intro b hb
      rcases (mem_insertSorted v b as).mp hb with rfl | hb
      · omega
      · exact h.1 b hb

/-- sortDedup yields a strictly sorted list. -/
theorem sorted_sortDedup (l : List ℤ) : (sortDedup l).Sorted (· < ·) := by
  induction l with
  | nil => simp [sortDedup]
  | cons a as ih => exact sorted_insertSorted a (sortDedup as) ih

/-- sortDedup yields a duplicate-free list. -/
theorem nodup_sortDedup (l : List ℤ) : (sortDedup l).Nodup :=
  (sorted_sortDedup l).nodup

/-- Sign times the integer equals the natural absolute value. -/
theorem sign_mul_self_eq_natAbs (a : ℤ) : a.sign * a = (a.natAbs : ℤ) := by
  rw [Int.natCast_natAbs]
  rcases lt_trichotomy a 0 with h | h | h
  · rw [Int.sign_eq_neg_one_of_neg h, abs_of_neg h]; ring
  · subst h; simp
  · rw [Int.sign_eq_one_of_pos h, abs_of_pos h]; ring

/-- Bezout invariant of the fuel-based extended Euclid. -/
theorem egcdAux_bezout (A B : ℤ) :
    ∀ (fuel r0 : ℕ) (s0 t0 : ℤ) (r1 : ℕ) (s1 t1 : ℤ),
      r1 ≤ fuel →
      s0 * A + t0 * B = (r0 : ℤ) →
      s1 * A + t1 * B = (r1 : ℤ) →
      (egcdAux fuel r0 s0 t0 r1 s1 t1).2.1 * A + (egcdAux fuel r0 s0 t0 r1 s1 t1).2.2 * B =
        ((egcdAux fuel r0 s0 t0 r1 s1 t1).1 : ℤ)
  | 0, r0, s0, t0, r1, s1, t1, _, h0, _ => by
    simpa [egcdAux] using h0
  | fuel + 1, r0, s0, t0, r1, s1, t1, hf, h0, h1 => by
    unfold egcdAux
    split_ifs with hz
    · simpa using h0
    · have hlt : r0 % r1 < r1 := Nat.mod_lt _ (Nat.pos_of_ne_zero hz)
      have hdm : (r1 : ℤ) * ((r0 / r1 : ℕ) : ℤ) + ((r0 % r1 : ℕ) : ℤ) = (r0 : ℤ) := by
        exact_mod_cast Nat.div_add_mod r0 r1
      exact egcdAux_bezout A B fuel r1 s1 t1 (r0 % r1)
        (s0 - ((r0 / r1 : ℕ) : ℤ) * s1) (t0 - ((r0 / r1 : ℕ) : ℤ) * t1)
        (by omega) h1
        (by linear_combination h0 - ((r0 / r1 : ℕ) : ℤ) * h1 - hdm)

/-- The result of the fuel-based extended Euclid divides both remainders. -/
theorem egcdAux_dvd :
    ∀ (fuel r0 : ℕ) (s0 t0 : ℤ) (r1 : ℕ) (s1 t1 : ℤ), r1 ≤ fuel →
      (egcdAux fuel r0 s0 t0 r1 s1 t1).1 ∣ r0 ∧ (egcdAux fuel r0 s0 t0 r1 s1 t1).1 ∣ r1
  | 0, r0, s0, t0, r1, s1, t1, hf => by
    have : r1 = 0 := by omega
    subst this
    simp [egcdAux]
  | fuel + 1, r0, s0, t0, r1, s1, t1, hf => by
    unfold egcdAux
    split_ifs with hz
    · subst hz
      simp

    · have hlt : r0 % r1 < r1 := Nat.mod_lt _ (Nat.pos_of_ne_zero hz)
      obtain ⟨ih1, ih2⟩ := egcdAux_dvd fuel r1 s1 t1 (r0 % r1)
        (s0 - ((r0 / r1 : ℕ) : ℤ) * s1) (t0 - ((r0 / r1 : ℕ) : ℤ) * t1) (by omega)
      refine ⟨?_, ih1⟩
      have hdm := Nat.div_add_mod r0 r1
      calc (egcdAux fuel r1 s1 t1 (r0 % r1) _ _).1 ∣ r1 * (r0 / r1) + r0 % r1 :=
            dvd_add (ih1.mul_right _) ih2
        _ = r0 := hdm

/-- The result of the fuel-based extended Euclid is positive when one of the
remainders is. -/
theorem egcdAux_pos :
    ∀ (fuel r0 : ℕ) (s0 t0 : ℤ) (r1 : ℕ) (s1 t1 : ℤ), r1 ≤ fuel →
      (0 < r0 ∨ 0 < r1) → 0 < (egcdAux fuel r0 s0 t0 r1 s1 t1).1
  | 0, r0, s0, t0, r1, s1, t1, hf, hp => by
    have : r1 = 0 := by omega
    subst this
    simpa [egcdAux] using by omega
  | fuel + 1, r0, s0, t0, r1, s1, t1, hf, hp => by
    unfold egcdAux
    split_ifs with hz
    · subst hz
      simpa using by omega
    · have hlt : r0 % r1 < r1 := Nat.mod_lt _ (Nat.pos_of_ne_zero hz)
      exact egcdAux_pos fuel r1 s1 t1 (r0 % r1) _ _ (by omega)
        (Or.inl (Nat.pos_of_ne_zero hz))

/-- Bezout identity of egcd. -/
theorem egcd_bezout (a b : ℤ) :
    (egcd a b).2.1 * a + (egcd a b).2.2 * b = (egcd a b).1 := by
  unfold egcd
  have h := egcdAux_bezout (a.natAbs : ℤ) (b.natAbs : ℤ) (b.natAbs + 1) a.natAbs 1 0
    b.natAbs 0 1 (by omega) (by ring) (by ring)
  dsimp only
  have e1 : (egcdAux (b.natAbs + 1) a.natAbs 1 0 b.natAbs 0 1).2.1 * a.sign * a =
      (egcdAux (b.natAbs + 1) a.natAbs 1 0 b.natAbs 0 1).2.1 * (a.natAbs : ℤ) := by
    rw [mul_assoc, sign_mul_self_eq_natAbs]
  have e2 : (egcdAux (b.natAbs + 1) a.natAbs 1 0 b.natAbs 0 1).2.2 * b.sign * b =
      (egcdAux (b.natAbs + 1) a.natAbs 1 0 b.natAbs 0 1).2.2 * (b.natAbs : ℤ) := by
    rw [mul_assoc, sign_mul_self_eq_natAbs]
  rw [e1, e2]
  exact h

/-- egcd divides its first argument. -/
theorem egcd_dvd_left (a b : ℤ) : (egcd a b).1 ∣ a := by
  unfold egcd
  dsimp only
  have h := (egcdAux_dvd (b.natAbs + 1) a.natAbs 1 0 b.natAbs 0 1 (by omega)).1
  have h2 : ((egcdAux (b.natAbs + 1) a.natAbs 1 0 b.natAbs 0 1).1 : ℤ) ∣ (a.natAbs : ℤ) :=
    Int.natCast_dvd_natCast.mpr h
  exact h2.trans (Int.natAbs_dvd.mpr dvd_rfl)

/-- egcd divides its second argument. -/
theorem egcd_dvd_right (a b : ℤ) : (egcd a b).1 ∣ b := by
  unfold egcd
  dsimp only
  have h := (egcdAux_dvd (b.natAbs + 1) a.natAbs 1 0 b.natAbs 0 1 (by omega)).2
  have h2 : ((egcdAux (b.natAbs + 1) a.natAbs 1 0 b.natAbs 0 1).1 : ℤ) ∣ (b.natAbs : ℤ) :=
    Int.natCast_dvd_natCast.mpr h
  exact h2.trans (Int.natAbs_dvd.mpr dvd_rfl)

/-- egcd is positive on a pair that is not (0, 0). -/
theorem egcd_pos (a b : ℤ) (h : ¬(a = 0 ∧ b = 0)) : 0 < (egcd a b).1 := by
  unfold egcd
  dsimp only
  have : 0 < (egcdAux (b.natAbs + 1) a.natAbs 1 0 b.natAbs 0 1).1 := by
    apply egcdAux_pos (b.natAbs + 1) a.natAbs 1 0 b.natAbs 0 1 (by omega)
    by_cases ha : a = 0
    · subst ha
      right
      have hb : b ≠ 0 := fun hb => h ⟨rfl, hb⟩
      exact Int.natAbs_pos.mpr hb
    · exact Or.inl (Int.natAbs_pos.mpr ha)
  exact_mod_cast this

/-- What a successful Diophantine solve guarantees: a positive common factor
g with p = g a, q = g b, a particular solution, the coprimality of the
reduced coefficients, and the reduced pair not being (0, 0). -/
theorem solveDiophantine_spec (p q c a b x0 y0 : ℤ)
    (h : solveDiophantine p q c = some (a, b, x0, y0)) :
    ∃ g : ℤ, g ≠ 0 ∧ p = g * a ∧ q = g * b ∧ p * x0 + q * y0 = c ∧
      IsCoprime a b ∧ ¬(a = 0 ∧ b = 0) := by
  unfold solveDiophantine at h
  split_ifs at h with h1 h2
  simp only [Option.some.injEq, Prod.mk.injEq] at h
  obtain ⟨ha, hb, hx, hy⟩ := h
  set g := (egcd p q).1 with hgdef
  have hgpos : 0 < g := egcd_pos p q h1
  have hg : g ≠ 0 := ne_of_gt hgpos
  have hpa : p = g * a := by rw [← ha]; exact (Int.mul_ediv_cancel' (egcd_dvd_left p q)).symm
  have hqb : q = g * b := by rw [← hb]; exact (Int.mul_ediv_cancel' (egcd_dvd_right p q)).symm
  have hcg : g * (c / g) = c := Int.mul_ediv_cancel' h2
  have hbez := egcd_bezout p q
  -- reduce the Bezout identity by g
  have hred : (egcd p q).2.1 * a + (egcd p q).2.2 * b = 1 := by
    have hgg : g * ((egcd p q).2.1 * a + (egcd p q).2.2 * b) = g * 1 := by
      linear_combination hbez - (egcd p q).2.1 * hpa - (egcd p q).2.2 * hqb
    exact mul_left_cancel₀ hg hgg
  refine ⟨g, hg, hpa, hqb, ?_, ⟨(egcd p q).2.1, (egcd p q).2.2, by linarith [hred]⟩, ?_⟩
  · rw [← hx, ← hy]
    calc p * ((egcd p q).2.1 * (c / g)) + q * ((egcd p q).2.2 * (c / g))
        = ((egcd p q).2.1 * p + (egcd p q).2.2 * q) * (c / g) := by ring
      _ = g * (c / g) := by rw [hbez]
      _ = c := hcg
  · rintro ⟨ha0, hb0⟩
    exact h1 ⟨by rw [hpa, ha0, mul_zero], by rw [hqb, hb0, mul_zero]⟩

/-- The solutions of p x + q y = c are exactly the line parameterized by the
reduced coefficients through the particular solution. -/
theorem sizeTwo_solutions_iff (p q c a b x0 y0 : ℤ)
    (h : solveDiophantine p q c = some (a, b, x0, y0)) (x y : ℤ) :
    p * x + q * y = c ↔ ∃ z : ℤ, x = x0 + b * z ∧ y = y0 - a * z := by
  obtain ⟨g, hg, hp, hq, hbase, hco, hnz⟩ := solveDiophantine_spec p q c a b x0 y0 h
  constructor
  · intro hxy
    have key : a * (x - x0) = b * (y0 - y) := by
      have h1 : g * (a * x + b * y) = g * (a * x0 + b * y0) := by
        linear_combination hxy - hbase - x * hp - y * hq + x0 * hp + y0 * hq
      have h2 : a * x + b * y = a * x0 + b * y0 := mul_left_cancel₀ hg h1
      linear_combination h2
    by_cases hb : b = 0
    · have ha : a ≠ 0 := fun h0 => hnz ⟨h0, hb⟩
      have hunit : IsUnit a := isCoprime_zero_right.mp (hb ▸ hco)
      have ha2 : a * a = 1 := by
        rcases Int.isUnit_iff.mp hunit with h1 | h1 <;> rw [h1] <;> norm_num
      have hx0 : x = x0 := by
        have : a * (x - x0) = 0 := by rw [key, hb, zero_mul]
        have := mul_eq_zero.mp this
        rcases this with h1 | h1
        · exact absurd h1 ha
        · omega
      refine ⟨a * (y0 - y), by rw [hb, hx0]; ring, ?_⟩
      have : a * (a * (y0 - y)) = y0 - y := by
        rw [← mul_assoc, ha2, one_mul]
      omega
    · have hdvd : b ∣ (x - x0) :=
        (hco.symm).dvd_of_dvd_mul_left ⟨y0 - y, key⟩
      obtain ⟨z, hz⟩ := hdvd
      refine ⟨z, by omega, ?_⟩
      have h3 : b * (a * z) = b * (y0 - y) := by linear_combination key - a * hz
      have h4 := mul_left_cancel₀ hb h3
      omega
  · rintro ⟨z, rfl, rfl⟩
    linear_combination hbase + z * b * hp - z * a * hq

/-- Membership in the effective parameter range: z is in the range exactly
when both coordinates of the corresponding pair lie in their domains. -/
theorem mem_paramRange (d1 d2 : Domain) (a b x0 y0 z : ℤ) (hab : ¬(a = 0 ∧ b = 0)) :
    z ∈ paramRange d1 d2 a b x0 y0 ↔
      ((x0 + b * z) ∈ d1 ∧ (y0 - a * z) ∈ d2) := by
  unfold paramRange
  by_cases hb : b = 0
  · have ha : a ≠ 0 := fun h0 => hab ⟨h0, hb⟩
    rw [if_neg (not_not_intro hb), if_pos ha, mem_sortDedup]
    simp only [List.mem_filter, List.mem_map, decide_eq_true_eq]
    constructor
    · rintro ⟨⟨y', ⟨hy'd, hdvd⟩, rfl⟩, hcont⟩
      have heq : a * ((y0 - y') / a) = y0 - y' := Int.mul_ediv_cancel' hdvd
      refine ⟨List.elem_iff.mp hcont, ?_⟩
      have : y0 - a * ((y0 - y') / a) = y' := by omega
      rwa [this]
    · rintro ⟨h1, h2⟩
      refine ⟨⟨y0 - a * z, ⟨h2, ⟨z, by ring⟩⟩, ?_⟩, List.elem_iff.mpr h1⟩
      have : y0 - (y0 - a * z) = a * z := by ring
      rw [this, Int.mul_ediv_cancel_left _ ha]
  · rw [if_pos hb, mem_sortDedup]
    simp only [List.mem_filter, List.mem_map, decide_eq_true_eq]
    constructor
    · rintro ⟨⟨x', ⟨hx'd, hdvd⟩, rfl⟩, hcont⟩
      have heq : b * ((x' - x0) / b) = x' - x0 := Int.mul_ediv_cancel' hdvd
      refine ⟨?_, List.elem_iff.mp hcont⟩
      have : x0 + b * ((x' - x0) / b) = x' := by omega
      rwa [this]
    · rintro ⟨h1, h2⟩
      refine ⟨⟨x0 + b * z, ⟨h1, ⟨z, by ring⟩⟩, ?_⟩, List.elem_iff.mpr h2⟩
      have : x0 + b * z - x0 = b * z := by ring
      rw [this, Int.mul_ediv_cancel_left _ hb]

/-- The parameter range has no duplicates. -/
theorem paramRange_nodup (d1 d2 : Domain) (a b x0 y0 : ℤ) :
    (paramRange d1 d2 a b x0 y0).Nodup := by
  unfold paramRange
  split_ifs
  · exact nodup_sortDedup _
  · exact nodup_sortDedup _
  · exact List.nodup_nil

/-- GetOrCreateVarValueEncoding on a present key returns the cached literal
and leaves the context unchanged. -/
theorem getOrCreate_of_has (ctx : Ctx) (v : ℕ) (value : ℤ)
    (h : ctx.hasVarValueEncoding v value = true) :
    ctx.getOrCreateVarValueEncoding v value =
      ((ctx.encoding.lookup (v, value)).getD 0, ctx) := by
  unfold Ctx.getOrCreateVarValueEncoding
  unfold Ctx.hasVarValueEncoding at h
  cases hl : ctx.encoding.lookup (v, value) with
  | none => rw [hl] at h; simp at h
  | some l => simp [hl]

/-- The clause-emission loop of ExpandSomeLinearOfSizeTwo appends exactly one
clause per parameter value when every needed encoding literal is present. -/
theorem expandSizeTwo_emission (var1 var2 : ℕ) (x0 y0 a b : ℤ) (enf : List ℤ) :
    ∀ (L : List ℤ) (ctx : Ctx),
      (∀ z ∈ L, ctx.hasVarValueEncoding var1 (x0 + b * z) = true ∧
        ctx.hasVarValueEncoding var2 (y0 - a * z) = true) →
      L.foldl
        (fun c z =>
          let g1 := c.getOrCreateVarValueEncoding var1 (x0 + b * z)
          let g2 := g1.2.getOrCreateVarValueEncoding var2 (y0 - a * z)
          g2.2.addCst ⟨[], .boolOr
            ([NegatedRef g1.1, NegatedRef g2.1] ++ enf.map NegatedRef)⟩)
        ctx =
      ctx.withConstraints (ctx.constraints ++
          L.map (fun z =>
            ⟨[], .boolOr
              ([NegatedRef ((ctx.encoding.lookup (var1, x0 + b * z)).getD 0),
                NegatedRef ((ctx.encoding.lookup (var2, y0 - a * z)).getD 0)] ++
                enf.map NegatedRef)⟩))
  | [], ctx, _ => by simp [Ctx.withConstraints]
  | z :: L, ctx, h => by
    have h1 := (h z (List.mem_cons_self z L)).1
    have h2 := (h z (List.mem_cons_self z L)).2
    rw [List.foldl_cons]
    rw [getOrCreate_of_has ctx var1 _ h1]
    dsimp only
    rw [getOrCreate_of_has ctx var2 _ h2]
    dsimp only
    have ih := expandSizeTwo_emission var1 var2 x0 y0 a b enf L
      (ctx.addCst ⟨[], .boolOr
        ([NegatedRef ((ctx.encoding.lookup (var1, x0 + b * z)).getD 0),
          NegatedRef ((ctx.encoding.lookup (var2, y0 - a * z)).getD 0)] ++
          enf.map NegatedRef)⟩)
      (fun w hw => h w (List.mem_cons_of_mem z hw))
    rw [ih]
    simp [Ctx.addCst, Ctx.withConstraints, List.append_assoc]

/-- Claim C4, amended: for a linear constraint over two non-fixed variables
whose domain excludes exactly one reachable value, if the Diophantine solve
succeeds, the derived parameter range has size at most 16, every required
(x==value) and (y==value) encoding literal already exists, AND both variable
domains have size different from two, then the expansion emits exactly one
clause per forbidden pair — the negated encoding literals of the pair followed
by the negated enforcement literals — and clears the constraint; the emitted
pairs are exactly the pairs of domain values on which the linear form takes
the excluded value, each exactly once. -/
theorem c4_linear_two_expansion (ct : LinearTwoCt) (ctx : Ctx) (cte a b x0 y0 : ℤ)
    (hvars : ct.vars.length = 2)
    (hnf1 : ctx.isFixedVar (ct.vars.getD 0 0) = false)
    (hnf2 : ctx.isFixedVar (ct.vars.getD 1 0) = false)
    (hinf : infeasibleOfSizeTwo ctx ct = [cte])
    (hsolve : solveDiophantine (ct.coeffs.getD 0 0) (ct.coeffs.getD 1 0) cte =
      some (a, b, x0, y0))
    (hrange : (paramRange (ctx.domainOf (ct.vars.getD 0 0))
      (ctx.domainOf (ct.vars.getD 1 0)) a b x0 y0).length ≤ 16)
    (hsz1 : (ctx.domainOf (ct.vars.getD 0 0)).length ≠ 2)
    (hsz2 : (ctx.domainOf (ct.vars.getD 1 0)).length ≠ 2)
    (henc : ∀ z ∈ paramRange (ctx.domainOf (ct.vars.getD 0 0))
        (ctx.domainOf (ct.vars.getD 1 0)) a b x0 y0,
      ctx.hasVarValueEncoding (ct.vars.getD 0 0) (x0 + b * z) = true ∧
      ctx.hasVarValueEncoding (ct.vars.getD 1 0) (y0 - a * z) = true) :
    C4Post ct ctx cte a b x0 y0 := by
  obtain ⟨g, hg, hp, hq, hbase, hco, hnz⟩ :=
    solveDiophantine_spec _ _ _ _ _ _ _ hsolve
  have hall : (paramRange (ctx.domainOf (ct.vars.getD 0 0))
      (ctx.domainOf (ct.vars.getD 1 0)) a b x0 y0).all
      (fun z => ctx.hasVarValueEncoding (ct.vars.getD 0 0) (x0 + b * z) &&
        decide ((ctx.domainOf (ct.vars.getD 0 0)).length ≠ 2) &&
        ctx.hasVarValueEncoding (ct.vars.getD 1 0) (y0 - a * z) &&
        decide ((ctx.domainOf (ct.vars.getD 1 0)).length ≠ 2)) = true := by
    rw [List.all_eq_true]
    intro z hz
    have hz2 := henc z hz
    simp only [Bool.and_eq_true, decide_eq_true_eq]
    exact ⟨⟨⟨hz2.1, hsz1⟩, hz2.2⟩, hsz2⟩
  have hexp : ExpandSomeLinearOfSizeTwo ct ctx =
      (true, ctx.withConstraints (ctx.constraints ++
        (paramRange (ctx.domainOf (ct.vars.getD 0 0)) (ctx.domainOf (ct.vars.getD 1 0))
          a b x0 y0).map (fun z =>
            ⟨[], .boolOr
              ([NegatedRef ((ctx.encoding.lookup (ct.vars.getD 0 0, x0 + b * z)).getD 0),
                NegatedRef ((ctx.encoding.lookup (ct.vars.getD 1 0, y0 - a * z)).getD 0)] ++
                ct.enforcement.map NegatedRef)⟩))) := by
    unfold ExpandSomeLinearOfSizeTwo
    rw [if_neg (by rw [hvars]; exact not_not_intro rfl)]
    rw [if_neg (by rw [hnf1, hnf2]; simp)]
    rw [hinf]
    rw [if_neg (by simp)]
    simp only [List.headD_cons]
    rw [hsolve]
    dsimp only
    rw [if_neg (by omega)]
    rw [hall]
    simp only [Bool.not_true, Bool.false_eq_true, if_false]
    exact congrArg (fun s => (true, s))
      (expandSizeTwo_emission (ct.vars.getD 0 0) (ct.vars.getD 1 0) x0 y0 a b
        ct.enforcement _ ctx henc)
  refine ⟨by rw [hexp], by rw [hexp], ?_, ?_, paramRange_nodup _ _ _ _ _ _⟩
  · intro z hz
    obtain ⟨m1, m2⟩ := (mem_paramRange _ _ a b x0 y0 z hnz).mp hz
    exact ⟨m1, m2, (sizeTwo_solutions_iff _ _ cte a b x0 y0 hsolve _ _).mpr ⟨z, rfl, rfl⟩⟩
  · intro x y hx hy hxy
    obtain ⟨z, hzx, hzy⟩ := (sizeTwo_solutions_iff _ _ cte a b x0 y0 hsolve x y).mp hxy
    refine ⟨z, (mem_paramRange _ _ a b x0 y0 z hnz).mpr ⟨?_, ?_⟩, hzx, hzy⟩
    · rwa [← hzx]
    · rwa [← hzy]

/-- Witness for c4_linear_two_expansion at the end-to-end scenario
2x + 3y != 12 with x over 0..5 and y over 0..4, both fully encoded where
needed: the claim hypotheses hold and the expansion emits exactly the two
clauses forbidding (0, 4) and (3, 2). -/
theorem c4_linear_two_expansion_witness :
    (c4WCt.vars.length = 2) ∧
    (c4WCtx.isFixedVar (c4WCt.vars.getD 0 0) = false) ∧
    (c4WCtx.isFixedVar (c4WCt.vars.getD 1 0) = false) ∧
    (infeasibleOfSizeTwo c4WCtx c4WCt = [12]) ∧
    (solveDiophantine (c4WCt.coeffs.getD 0 0) (c4WCt.coeffs.getD 1 0) 12 =
      some (2, 3, -12, 12)) ∧
    ((paramRange (c4WCtx.domainOf (c4WCt.vars.getD 0 0))
      (c4WCtx.domainOf (c4WCt.vars.getD 1 0)) 2 3 (-12) 12).length ≤ 16) ∧
    ((c4WCtx.domainOf (c4WCt.vars.getD 0 0)).length ≠ 2) ∧
    ((c4WCtx.domainOf (c4WCt.vars.getD 1 0)).length ≠ 2) ∧
    (∀ z ∈ paramRange (c4WCtx.domainOf (c4WCt.vars.getD 0 0))
        (c4WCtx.domainOf (c4WCt.vars.getD 1 0)) 2 3 (-12) 12,
      c4WCtx.hasVarValueEncoding (c4WCt.vars.getD 0 0) (-12 + 3 * z) = true ∧
      c4WCtx.hasVarValueEncoding (c4WCt.vars.getD 1 0) (12 - 2 * z) = true) ∧
    C4Post c4WCt c4WCtx 12 2 3 (-12) 12 :=
  ⟨by decide, by decide, by decide, by decide, by decide, by decide, by decide,
   by decide, by decide,
   c4_linear_two_expansion c4WCt c4WCtx 12 2 3 (-12) 12 (by decide) (by decide)
     (by decide) (by decide) (by decide) (by decide) (by decide) (by decide)
     (by decide)⟩

/-- Claim C4 counterexample.  On the instance x + y != 4 with x over the
two-value domain 0..1 and y over 0..4, all claim premises hold: both
variables non-fixed, exactly one excluded reachable value (4), parameter
range of size 2 (at most 16), and every required encoding literal present.
Yet ExpandSomeLinearOfSizeTwo returns the context unchanged and does not
clear the constraint, because the code additionally refuses any variable
whose domain has exactly two values (cp_model_expand.cc:1645-1650). -/
theorem c4_counterexample_domain_size_two :
    (c4BadCtx.isFixedVar 0 = false) ∧ (c4BadCtx.isFixedVar 1 = false) ∧
    infeasibleOfSizeTwo c4BadCtx c4BadCt = [4] ∧
    solveDiophantine 1 1 4 = some (1, 1, 0, 4) ∧
    (paramRange (c4BadCtx.domainOf 0) (c4BadCtx.domainOf 1) 1 1 0 4).length ≤ 16 ∧
    (∀ z ∈ paramRange (c4BadCtx.domainOf 0) (c4BadCtx.domainOf 1) 1 1 0 4,
      c4BadCtx.hasVarValueEncoding 0 (0 + 1 * z) = true ∧
      c4BadCtx.hasVarValueEncoding 1 (4 - 1 * z) = true) ∧
    ExpandSomeLinearOfSizeTwo c4BadCt c4BadCtx = (false, c4BadCtx) := by
  decide

theorem lookup_append_none {α β : Type} [BEq α] (k : α) (l1 l2 : List (α × β))
    (h : List.lookup k l1 = none) :
    List.lookup k (l1 ++ l2) = List.lookup k l2 := by
  induction l1 with
  | nil => rfl
  | cons p t ih =>
    obtain ⟨a0, b0⟩ := p
    rw [List.lookup_cons] at h
    rw [List.cons_append, List.lookup_cons]
    cases hk : (k == a0) with
    | true => rw [hk] at h; simp at h
    | false => rw [hk] at h; simpa using ih h

theorem lookup_append_some {α β : Type} [BEq α] (k : α) (l1 l2 : List (α × β))
    (b : β) (h : List.lookup k l1 = some b) :
    List.lookup k (l1 ++ l2) = some b := by
  induction l1 with
  | nil => simp at h
  | cons p t ih =>
    obtain ⟨a0, b0⟩ := p
    rw [List.lookup_cons] at h
    rw [List.cons_append, List.lookup_cons]
    cases hk : (k == a0) with
    | true => rw [hk] at h; simpa using h
    | false => rw [hk] at h; simpa using ih h

theorem lookup_single {α β : Type} [BEq α] [LawfulBEq α] [DecidableEq α]
    (k k0 : α) (b : β) :
    List.lookup k [(k0, b)] = if k = k0 then some b else none := by
  rw [List.lookup_cons]
  cases hk : (k == k0) with
  | true => rw [if_pos (by exact eq_of_beq hk)]
  | false => rw [if_neg (by simpa using hk)]; rfl

theorem lookup_append_single_cases {α β : Type} [BEq α] [LawfulBEq α]
    [DecidableEq α] (k k0 : α) (b x : β) (l : List (α × β))
    (h : List.lookup k (l ++ [(k0, b)]) = some x) :
    List.lookup k l = some x ∨ (k = k0 ∧ x = b ∧ List.lookup k l = none) := by
  cases hl : List.lookup k l with
  | some y => rw [lookup_append_some k l _ y hl] at h; exact Or.inl h
  | none =>
    rw [lookup_append_none k l _ hl, lookup_single] at h
    by_cases hk : k = k0
    · rw [if_pos hk] at h
      injection h with h
      exact Or.inr ⟨hk, h.symm, rfl⟩
    · rw [if_neg hk] at h; exact absurd h (by simp)

theorem lookup_append_single_none {α β : Type} [BEq α] [LawfulBEq α]
    [DecidableEq α] (k k0 : α) (b : β) (l : List (α × β))
    (h : List.lookup k (l ++ [(k0, b)]) = none) :
    List.lookup k l = none ∧ k ≠ k0 := by
  cases hl : List.lookup k l with
  | some y => rw [lookup_append_some k l _ y hl] at h; simp at h
  | none =>
    rw [lookup_append_none k l _ hl, lookup_single] at h
    refine ⟨rfl, fun hk => ?_⟩
    rw [if_pos hk] at h
    simp at h

theorem lookup_append_single_ne {α β : Type} [BEq α] [LawfulBEq α]
    [DecidableEq α] (k k0 : α) (b : β) (l : List (α × β)) (hk : k ≠ k0) :
    List.lookup k (l ++ [(k0, b)]) = List.lookup k l := by
  cases hl : List.lookup k l with
  | some y => exact lookup_append_some k l _ y hl
  | none => rw [lookup_append_none k l _ hl, lookup_single, if_neg hk]

theorem getD_append_lt {α : Type} (l1 l2 : List α) (n : ℕ) (a : α)
    (h : n < l1.length) :
    (l1 ++ l2).getD n a = l1.getD n a := by
  rw [List.getD_eq_getElem?_getD, List.getD_eq_getElem?_getD,
    List.getElem?_append, if_pos h]

theorem two_le_filter_length {α : Type} (p : α → Bool) (l : List α) (a b : α)
    (ha : a ∈ l) (hb : b ∈ l) (hab : a ≠ b) (hpa : p a = true)
    (hpb : p b = true) : 2 ≤ (l.filter p).length := by
  have ha' : a ∈ l.filter p := List.mem_filter.mpr ⟨ha, hpa⟩
  have hb' : b ∈ l.filter p := List.mem_filter.mpr ⟨hb, hpb⟩
  rcases hf : l.filter p with _ | ⟨x, _ | ⟨y, t⟩⟩
  · rw [hf] at ha'; simp at ha'
  · rw [hf] at ha' hb'
    simp only [List.mem_singleton] at ha' hb'
    exact absurd (ha'.trans hb'.symm) hab
  · simp [List.length_cons]

theorem countImg_cons (img : ℤ → ℤ) (v : ℤ) (S : List ℤ) (value : ℤ) :
    countImg img (v :: S) value =
      (if img v = value then 1 else 0) + countImg img S value := by
  by_cases h : img v = value <;>
    simp [countImg, List.filter_cons, h, Nat.add_comm]

theorem grows_refl (c : Ctx) : Ctx.Grows c c :=
  ⟨⟨[], by simp⟩, ⟨[], by simp⟩⟩

theorem grows_trans {a b c : Ctx} (h1 : Ctx.Grows a b) (h2 : Ctx.Grows b c) :
    Ctx.Grows a c := by
  obtain ⟨⟨t1, ht1⟩, ⟨e1, he1⟩⟩ := h1
  obtain ⟨⟨t2, ht2⟩, ⟨e2, he2⟩⟩ := h2
  exact ⟨⟨t1 ++ t2, by rw [ht2, ht1, List.append_assoc]⟩,
    ⟨e1 ++ e2, by rw [he2, he1, List.append_assoc]⟩⟩

theorem grows_numVars {c c' : Ctx} (h : Ctx.Grows c c') :
    c.numVars ≤ c'.numVars := by
  obtain ⟨⟨t, ht⟩, -⟩ := h
  simp [Ctx.numVars, ht]

theorem grows_minOfVar {c c' : Ctx} (h : Ctx.Grows c c') (v : ℕ)
    (hv : v < c.numVars) : c'.minOfVar v = c.minOfVar v := by
  obtain ⟨⟨t, ht⟩, -⟩ := h
  simp only [Ctx.minOfVar, Ctx.domainOf, ht]
  rw [getD_append_lt _ _ _ _ hv]

theorem grows_lookup {c c' : Ctx} (h : Ctx.Grows c c') (k : ℕ × ℤ) (b : ℤ)
    (hk : c.encoding.lookup k = some b) : c'.encoding.lookup k = some b := by
  obtain ⟨-, ⟨e, he⟩⟩ := h
  rw [he]
  exact lookup_append_some k _ e b hk

theorem grows_addCst (c : Ctx) (k : Cst) : Ctx.Grows c (c.addCst k) :=
  ⟨⟨[], by simp [Ctx.addCst]⟩, ⟨[], by simp [Ctx.addCst]⟩⟩

theorem grows_appendLitAt (c : Ctx) (pos : ℕ) (lit : ℤ) :
    Ctx.Grows c (appendLitAt c pos lit) :=
  ⟨⟨[], by simp [appendLitAt]⟩, ⟨[], by simp [appendLitAt]⟩⟩

theorem appendLitAt_encoding (c : Ctx) (pos : ℕ) (lit : ℤ) :
    (appendLitAt c pos lit).encoding = c.encoding := rfl

theorem appendLitAt_length (c : Ctx) (pos : ℕ) (lit : ℤ) :
    (appendLitAt c pos lit).constraints.length = c.constraints.length := by
  simp [appendLitAt, List.length_modify]

theorem appendLitAt_getElem_ne (c : Ctx) (pos posB : ℕ) (lit : ℤ)
    (h : pos ≠ posB) :
    (appendLitAt c pos lit).constraints[posB]? = c.constraints[posB]? := by
  simp [appendLitAt, List.getElem?_modify, h]

theorem appendLitAt_getElem_boolOr (c : Ctx) (pos : ℕ) (lit : ℤ) (enf L)
    (h : c.constraints[pos]? = some ⟨enf, .boolOr L⟩) :
    (appendLitAt c pos lit).constraints[pos]? =
      some ⟨enf, .boolOr (L ++ [lit])⟩ := by
  simp [appendLitAt, List.getElem?_modify, h, appendLitTo]

theorem addCst_getElem_lt (c : Ctx) (k : Cst) (pos : ℕ)
    (h : pos < c.constraints.length) :
    (c.addCst k).constraints[pos]? = c.constraints[pos]? := by
  simp [Ctx.addCst, List.getElem?_append, h]

theorem addCst_length (c : Ctx) (k : Cst) :
    (c.addCst k).constraints.length = c.constraints.length + 1 := by
  simp [Ctx.addCst]

theorem getOrCreate_constraints (c : Ctx) (v : ℕ) (value : ℤ) :
    (c.getOrCreateVarValueEncoding v value).2.constraints = c.constraints := by
  cases h : c.encoding.lookup (v, value) <;>
    simp [Ctx.getOrCreateVarValueEncoding, h, Ctx.newBoolVar, Ctx.newVar]

theorem getOrCreate_grows (c : Ctx) (v : ℕ) (value : ℤ) :
    Ctx.Grows c (c.getOrCreateVarValueEncoding v value).2 := by
  cases h : c.encoding.lookup (v, value) with
  | some l =>
    have he : (c.getOrCreateVarValueEncoding v value).2 = c := by
      simp [Ctx.getOrCreateVarValueEncoding, h]
    rw [he]
    exact grows_refl c
  | none =>
    refine ⟨⟨[[0, 1]], ?_⟩, ⟨[((v, value), (c.domains.length : ℤ))], ?_⟩⟩ <;>
      simp [Ctx.getOrCreateVarValueEncoding, h, Ctx.newBoolVar, Ctx.newVar]

theorem getOrCreate_lookup_self (c : Ctx) (v : ℕ) (value : ℤ) :
    (c.getOrCreateVarValueEncoding v value).2.encoding.lookup (v, value) =
      some (c.getOrCreateVarValueEncoding v value).1 := by
  cases h : c.encoding.lookup (v, value) with
  | some l => simp [Ctx.getOrCreateVarValueEncoding, h]
  | none =>
    simp only [Ctx.getOrCreateVarValueEncoding, h, Ctx.newBoolVar, Ctx.newVar]
    rw [lookup_append_none _ _ _ h, lookup_single, if_pos rfl]

theorem getOrCreate_lookup_ne (c : Ctx) (v : ℕ) (value : ℤ) (k : ℕ × ℤ)
    (hk : k ≠ (v, value)) :
    (c.getOrCreateVarValueEncoding v value).2.encoding.lookup k =
      c.encoding.lookup k := by
  cases h : c.encoding.lookup (v, value) with
  | some l => simp [Ctx.getOrCreateVarValueEncoding, h]
  | none =>
    simp only [Ctx.getOrCreateVarValueEncoding, h, Ctx.newBoolVar, Ctx.newVar]
    exact lookup_append_single_ne _ _ _ _ hk

theorem insert_grows (c : Ctx) (lit : ℤ) (v : ℕ) (value : ℤ) :
    Ctx.Grows c (c.insertVarValueEncoding lit v value) := by
  unfold Ctx.insertVarValueEncoding
  split
  · exact grows_refl c
  · exact ⟨⟨[], by simp⟩, ⟨[((v, value), lit)], rfl⟩⟩

theorem insert_lookup_self_of_none (c : Ctx) (lit : ℤ) (v : ℕ) (value : ℤ)
    (h : c.encoding.lookup (v, value) = none) :
    (c.insertVarValueEncoding lit v value).encoding.lookup (v, value) =
      some lit := by
  unfold Ctx.insertVarValueEncoding
  rw [if_neg (by simp [h])]
  show (c.encoding ++ [((v, value), lit)]).lookup (v, value) = some lit
  rw [lookup_append_none _ _ _ h, lookup_single, if_pos rfl]

theorem insert_lookup_ne (c : Ctx) (lit : ℤ) (v : ℕ) (value : ℤ) (k : ℕ × ℤ)
    (hk : k ≠ (v, value)) :
    (c.insertVarValueEncoding lit v value).encoding.lookup k =
      c.encoding.lookup k := by
  unfold Ctx.insertVarValueEncoding
  split
  · rfl
  · exact lookup_append_single_ne _ _ _ _ hk

theorem supportClauseStep_grows (tgt : ℕ) (value : ℤ) (c : Ctx) :
    Ctx.Grows c (supportClauseStep tgt value c).2 := by
  unfold supportClauseStep
  dsimp only
  exact grows_trans (grows_addCst c _)
    (grows_trans (getOrCreate_grows _ tgt value) (grows_appendLitAt _ _ _))

theorem supportClauseStep_length (tgt : ℕ) (value : ℤ) (c : Ctx) :
    (supportClauseStep tgt value c).2.constraints.length =
      c.constraints.length + 1 := by
  unfold supportClauseStep
  dsimp only
  rw [appendLitAt_length, getOrCreate_constraints, addCst_length]

theorem supportClauseStep_getElem_self (tgt : ℕ) (value : ℤ) (c : Ctx) :
    (supportClauseStep tgt value c).2.constraints[c.constraints.length]? =
      some ⟨[], .boolOr [NegatedRef (supportClauseStep tgt value c).1]⟩ := by
  unfold supportClauseStep
  dsimp only
  have h0 : ((c.addCst ⟨[], .boolOr []⟩).getOrCreateVarValueEncoding tgt
      value).2.constraints[c.constraints.length]? = some ⟨[], .boolOr []⟩ := by
    rw [getOrCreate_constraints]
    exact List.getElem?_concat_length _ _
  have h1 := appendLitAt_getElem_boolOr _ c.constraints.length
    (NegatedRef ((c.addCst ⟨[], .boolOr []⟩).getOrCreateVarValueEncoding tgt
      value).1) [] [] h0
  simpa using h1

theorem supportClauseStep_getElem_lt (tgt : ℕ) (value : ℤ) (c : Ctx) (p : ℕ)
    (hp : p < c.constraints.length) :
    (supportClauseStep tgt value c).2.constraints[p]? = c.constraints[p]? := by
  unfold supportClauseStep
  dsimp only
  rw [appendLitAt_getElem_ne _ _ _ _ (Nat.ne_of_gt hp), getOrCreate_constraints]
  exact addCst_getElem_lt c _ p hp

theorem supportClauseStep_lookup_self (tgt : ℕ) (value : ℤ) (c : Ctx) :
    (supportClauseStep tgt value c).2.encoding.lookup (tgt, value) =
      some (supportClauseStep tgt value c).1 := by
  unfold supportClauseStep
  dsimp only
  rw [appendLitAt_encoding]
  exact getOrCreate_lookup_self _ tgt value

theorem supportClauseStep_lookup_ne (tgt : ℕ) (value : ℤ) (c : Ctx)
    (k : ℕ × ℤ) (hk : k ≠ (tgt, value)) :
    (supportClauseStep tgt value c).2.encoding.lookup k =
      c.encoding.lookup k := by
  unfold supportClauseStep
  dsimp only
  rw [appendLitAt_encoding, getOrCreate_lookup_ne _ _ _ _ hk]
  rfl

theorem phase1Inv_mono (ct : ElementCt) (b1 b2 : ℤ → ℕ) (c : Ctx)
    (s : List (ℤ × ℕ)) (h : ∀ w, b1 w = b2 w) (hi : Phase1Inv ct b1 c s) :
    Phase1Inv ct b2 c s := by
  obtain ⟨hiff, h2, h3, h4⟩ := hi
  exact ⟨fun value => by rw [← h value]; exact hiff value, h2, h3, h4⟩

theorem constElemPhase1_spec (ct : ElementCt) (img : ℤ → ℤ) :
    ∀ (S : List ℤ) (c : Ctx) (counts : ℤ → ℕ) (supports : List (ℤ × ℕ)),
      (∀ v ∈ S, c.minOfVar (ct.vars.getD v.toNat 0) = img v) →
      (∀ v ∈ S, ct.vars.getD v.toNat 0 < c.numVars) →
      Phase1Inv ct counts c supports →
      Ctx.Grows c (constElemPhase1 ct S c counts supports).1 ∧
      Phase1Inv ct (fun w => counts w + countImg img S w)
        (constElemPhase1 ct S c counts supports).1
        (constElemPhase1 ct S c counts supports).2.2 := by
  intro S
  induction S with
  | nil =>
    intro c counts supports _ _ hinv
    refine ⟨grows_refl c, phase1Inv_mono ct counts _ c supports ?_ hinv⟩
    intro w
    simp [countImg]
  | cons v rest ih =>
    intro c counts supports himg hvlt hinv
    have hv0 : c.minOfVar (ct.vars.getD v.toNat 0) = img v :=
      himg v (List.mem_cons_self v rest)
    obtain ⟨hiff, hcontent, hinj, hnone⟩ := hinv
    have hpt : ∀ w, (if w = img v then counts (img v) + 1 else counts w) +
        countImg img rest w = counts w + countImg img (v :: rest) w := by
      intro w
      rw [countImg_cons]
      by_cases hw : w = img v
      · subst hw
        rw [if_pos rfl, if_pos rfl]
        omega
      · rw [if_neg hw, if_neg fun h => hw h.symm]
        omega
    simp only [constElemPhase1]
    rw [hv0]
    by_cases hc : counts (img v) + 1 = 2
    · rw [if_pos hc]
      have hcv : counts (img v) = 1 := by omega
      have hsupnone : supports.lookup (img v) = none := by
        cases hs : supports.lookup (img v) with
        | none => rfl
        | some p =>
          have h2 := (hiff (img v)).mp (by rw [hs]; rfl)
          omega
      have hencnone : c.encoding.lookup (ct.target, img v) = none :=
        hnone _ hsupnone
      have hstep := supportClauseStep_grows ct.target (img v) c
      have himg' : ∀ w ∈ rest,
          (supportClauseStep ct.target (img v) c).2.minOfVar
            (ct.vars.getD w.toNat 0) = img w := by
        intro w hw
        rw [grows_minOfVar hstep _ (hvlt w (List.mem_cons_of_mem v hw))]
        exact himg w (List.mem_cons_of_mem v hw)
      have hvlt' : ∀ w ∈ rest, ct.vars.getD w.toNat 0 <
          (supportClauseStep ct.target (img v) c).2.numVars := by
        intro w hw
        exact lt_of_lt_of_le (hvlt w (List.mem_cons_of_mem v hw))
          (grows_numVars hstep)
      have hinv' : Phase1Inv ct
          (fun w => if w = img v then counts (img v) + 1 else counts w)
          (supportClauseStep ct.target (img v) c).2
          (supports ++ [(img v, c.constraints.length)]) := by
        refine ⟨?_, ?_, ?_, ?_⟩
        · intro value
          dsimp only
          by_cases hw : value = img v
          · subst hw
            rw [lookup_append_none _ _ _ hsupnone, lookup_single, if_pos rfl,
              if_pos rfl]
            simp
            omega
          · rw [lookup_append_single_ne _ _ _ _ hw, if_neg hw]
            exact hiff value
        · intro value pos hp
          rcases lookup_append_single_cases _ _ _ _ _ hp with hold | ⟨hw, hpos, -⟩
          · have hvne : value ≠ img v := by
              intro hh
              rw [hh, hsupnone] at hold
              exact absurd hold (by simp)
            obtain ⟨hlt, tlit, htl, hcst⟩ := hcontent value pos hold
            refine ⟨?_, tlit, ?_, ?_⟩
            · rw [supportClauseStep_length]
              omega
            · rw [supportClauseStep_lookup_ne _ _ _ _ (by simp [hvne])]
              exact htl
            · rw [supportClauseStep_getElem_lt _ _ _ _ hlt]
              exact hcst
          · subst hw
            subst hpos
            refine ⟨by rw [supportClauseStep_length]; omega,
              (supportClauseStep ct.target (img v) c).1,
              supportClauseStep_lookup_self _ _ _,
              supportClauseStep_getElem_self _ _ _⟩
        · intro w1 p w2 h1 h2
          rcases lookup_append_single_cases _ _ _ _ _ h1 with ho1 | ⟨he1, hp1, -⟩
          · rcases lookup_append_single_cases _ _ _ _ _ h2 with ho2 | ⟨he2, hp2, -⟩
            · exact hinj w1 p w2 ho1 ho2
            · obtain ⟨hlt, -⟩ := hcontent w1 p ho1
              omega
          · rcases lookup_append_single_cases _ _ _ _ _ h2 with ho2 | ⟨he2, hp2, -⟩
            · obtain ⟨hlt, -⟩ := hcontent w2 p ho2
              omega
            · rw [he1, he2]
        · intro value hp
          obtain ⟨hold, hvne⟩ := lookup_append_single_none _ _ _ _ hp
          rw [supportClauseStep_lookup_ne _ _ _ _ (by simp [hvne])]
          exact hnone value hold
      obtain ⟨hg, hi⟩ := ih (supportClauseStep ct.target (img v) c).2 _ _
        himg' hvlt' hinv'
      exact ⟨grows_trans hstep hg, phase1Inv_mono ct _ _ _ _ hpt hi⟩
    · rw [if_neg hc]
      have himg' : ∀ w ∈ rest, c.minOfVar (ct.vars.getD w.toNat 0) = img w :=
        fun w hw => himg w (List.mem_cons_of_mem v hw)
      have hvlt' : ∀ w ∈ rest, ct.vars.getD w.toNat 0 < c.numVars :=
        fun w hw => hvlt w (List.mem_cons_of_mem v hw)
      have hinv' : Phase1Inv ct
          (fun w => if w = img v then counts (img v) + 1 else counts w)
          c supports := by
        refine ⟨?_, hcontent, hinj, hnone⟩
        intro value
        dsimp only
        by_cases hw : value = img v
        · subst hw
          rw [if_pos rfl]
          constructor
          · intro hs
            have h2 := (hiff _).mp hs
            omega
          · intro h2
            exact (hiff _).mpr (by omega)
        · rw [if_neg hw]
          exact hiff value
      obtain ⟨hg, hi⟩ := ih c _ _ himg' hvlt' hinv'
      exact ⟨hg, phase1Inv_mono ct _ _ _ _ hpt hi⟩

theorem addImplication_encoding (c : Ctx) (a b : ℤ) :
    (c.addImplication a b).encoding = c.encoding := rfl

theorem addImplication_getElem_lt (c : Ctx) (a b : ℤ) (pos : ℕ)
    (h : pos < c.constraints.length) :
    (c.addImplication a b).constraints[pos]? = c.constraints[pos]? :=
  addCst_getElem_lt c _ pos h

theorem addImplication_length (c : Ctx) (a b : ℤ) :
    (c.addImplication a b).constraints.length = c.constraints.length + 1 :=
  addCst_length c _

theorem insert_constraints (c : Ctx) (lit : ℤ) (v : ℕ) (value : ℤ) :
    (c.insertVarValueEncoding lit v value).constraints = c.constraints := by
  unfold Ctx.insertVarValueEncoding
  split <;> rfl

theorem elemVisit_eq_core (ct : ElementCt) (supports : List (ℤ × ℕ))
    (exPos : ℕ) (v w : ℤ) (c : Ctx)
    (hlt : ct.vars.getD v.toNat 0 < c.numVars)
    (hmv : c.minOfVar (ct.vars.getD v.toNat 0) = w) :
    elemVisit ct supports exPos v c = elemVisitCore ct supports exPos v w c := by
  unfold elemVisit
  rw [grows_minOfVar (grows_trans (getOrCreate_grows _ _ _)
    (grows_appendLitAt _ _ _)) _ hlt, hmv]

theorem elemVisitCore_grows (ct : ElementCt) (supports : List (ℤ × ℕ))
    (exPos : ℕ) (v value : ℤ) (c : Ctx) :
    Ctx.Grows c (elemVisitCore ct supports exPos v value c) := by
  simp only [elemVisitCore]
  have hg1 : Ctx.Grows c (appendLitAt (c.getOrCreateVarValueEncoding ct.index
      v).2 exPos (c.getOrCreateVarValueEncoding ct.index v).1) :=
    grows_trans (getOrCreate_grows _ _ _) (grows_appendLitAt _ _ _)
  cases hm : List.lookup value supports with
  | some pos =>
    dsimp only
    exact grows_trans hg1 (grows_trans (getOrCreate_grows _ _ _)
      (grows_trans (grows_addCst _ _) (grows_appendLitAt _ _ _)))
  | none =>
    dsimp only
    exact grows_trans hg1 (insert_grows _ _ _ _)

theorem elemVisitCore_length_le (ct : ElementCt) (supports : List (ℤ × ℕ))
    (exPos : ℕ) (v value : ℤ) (c : Ctx) :
    c.constraints.length ≤
      (elemVisitCore ct supports exPos v value c).constraints.length := by
  simp only [elemVisitCore]
  cases hm : List.lookup value supports with
  | some pos =>
    dsimp only
    rw [appendLitAt_length, addImplication_length, getOrCreate_constraints,
      appendLitAt_length, getOrCreate_constraints]
    omega
  | none =>
    dsimp only
    rw [insert_constraints, appendLitAt_length, getOrCreate_constraints]

theorem elemVisitCore_lookup_idx (ct : ElementCt) (supports : List (ℤ × ℕ))
    (exPos : ℕ) (v value : ℤ) (c : Ctx) (hne : ct.index ≠ ct.target) :
    (elemVisitCore ct supports exPos v value c).encoding.lookup (ct.index, v) =
      some (c.getOrCreateVarValueEncoding ct.index v).1 := by
  simp only [elemVisitCore]
  cases hm : List.lookup value supports with
  | some pos =>
    dsimp only
    rw [appendLitAt_encoding, addImplication_encoding,
      getOrCreate_lookup_ne _ _ _ _ (by simp [hne]), appendLitAt_encoding]
    exact getOrCreate_lookup_self _ _ _
  | none =>
    dsimp only
    rw [insert_lookup_ne _ _ _ _ _ (by simp [hne]), appendLitAt_encoding]
    exact getOrCreate_lookup_self _ _ _

theorem elemVisitCore_getElem_match (ct : ElementCt) (supports : List (ℤ × ℕ))
    (exPos : ℕ) (v value : ℤ) (c : Ctx) (pos0 : ℕ) (L : List ℤ)
    (hm : List.lookup value supports = some pos0) (hpos0ex : pos0 ≠ exPos)
    (hlen : pos0 < c.constraints.length)
    (hcur : c.constraints[pos0]? = some ⟨[], .boolOr L⟩) :
    (elemVisitCore ct supports exPos v value c).constraints[pos0]? =
      some ⟨[], .boolOr (L ++ [(c.getOrCreateVarValueEncoding ct.index v).1])⟩ := by
  simp only [elemVisitCore]
  rw [hm]
  dsimp only
  have h1 : (appendLitAt (c.getOrCreateVarValueEncoding ct.index v).2 exPos
      (c.getOrCreateVarValueEncoding ct.index v).1).constraints[pos0]? =
      some ⟨[], .boolOr L⟩ := by
    rw [appendLitAt_getElem_ne _ _ _ _ fun h => hpos0ex h.symm,
      getOrCreate_constraints]
    exact hcur
  have hl1 : pos0 < (((appendLitAt (c.getOrCreateVarValueEncoding ct.index
      v).2 exPos (c.getOrCreateVarValueEncoding ct.index
      v).1).getOrCreateVarValueEncoding ct.target
      value).2).constraints.length := by
    rw [getOrCreate_constraints, appendLitAt_length, getOrCreate_constraints]
    exact hlen
  refine appendLitAt_getElem_boolOr _ pos0 _ [] L ?_
  rw [addImplication_getElem_lt _ _ _ _ hl1, getOrCreate_constraints]
  exact h1

theorem elemVisitCore_getElem_other (ct : ElementCt) (supports : List (ℤ × ℕ))
    (exPos : ℕ) (v value : ℤ) (c : Ctx) (pos0 : ℕ)
    (hpos0ex : pos0 ≠ exPos) (hlen : pos0 < c.constraints.length)
    (hdiff : ∀ pos1, List.lookup value supports = some pos1 → pos1 ≠ pos0) :
    (elemVisitCore ct supports exPos v value c).constraints[pos0]? =
      c.constraints[pos0]? := by
  simp only [elemVisitCore]
  have h1 : (appendLitAt (c.getOrCreateVarValueEncoding ct.index v).2 exPos
      (c.getOrCreateVarValueEncoding ct.index v).1).constraints[pos0]? =
      c.constraints[pos0]? := by
    rw [appendLitAt_getElem_ne _ _ _ _ fun h => hpos0ex h.symm,
      getOrCreate_constraints]
  cases hm : List.lookup value supports with
  | some pos =>
    dsimp only
    have hl1 : pos0 < (((appendLitAt (c.getOrCreateVarValueEncoding ct.index
        v).2 exPos (c.getOrCreateVarValueEncoding ct.index
        v).1).getOrCreateVarValueEncoding ct.target
        value).2).constraints.length := by
      rw [getOrCreate_constraints, appendLitAt_length, getOrCreate_constraints]
      exact hlen
    rw [appendLitAt_getElem_ne _ _ _ _ (hdiff pos hm),
      addImplication_getElem_lt _ _ _ _ hl1, getOrCreate_constraints]
    exact h1
  | none =>
    dsimp only
    rw [insert_constraints]
    exact h1

theorem elemVisitCore_alias (ct : ElementCt) (supports : List (ℤ × ℕ))
    (exPos : ℕ) (v value : ℤ) (c : Ctx)
    (hm : List.lookup value supports = none)
    (hnone : c.encoding.lookup (ct.target, value) = none)
    (hne : ct.index ≠ ct.target) :
    (elemVisitCore ct supports exPos v value c).encoding.lookup
        (ct.target, value) =
      some (c.getOrCreateVarValueEncoding ct.index v).1 := by
  simp only [elemVisitCore]
  rw [hm]
  dsimp only
  refine insert_lookup_self_of_none _ _ _ _ ?_
  rw [appendLitAt_encoding, getOrCreate_lookup_ne _ _ _ _
    (by simp; intro h; exact absurd h.symm hne)]
  exact hnone

theorem elemVisitCore_target_none (ct : ElementCt) (supports : List (ℤ × ℕ))
    (exPos : ℕ) (v value u : ℤ) (c : Ctx) (hu : value ≠ u)
    (hne : ct.index ≠ ct.target)
    (hnoneu : c.encoding.lookup (ct.target, u) = none) :
    (elemVisitCore ct supports exPos v value c).encoding.lookup
      (ct.target, u) = none := by
  simp only [elemVisitCore]
  have h1 : (appendLitAt (c.getOrCreateVarValueEncoding ct.index v).2 exPos
      (c.getOrCreateVarValueEncoding ct.index v).1).encoding.lookup
      (ct.target, u) = none := by
    rw [appendLitAt_encoding, getOrCreate_lookup_ne _ _ _ _
      (by simp; intro h; exact absurd h.symm hne)]
    exact hnoneu
  cases hm : List.lookup value supports with
  | some pos =>
    dsimp only
    rw [appendLitAt_encoding, addImplication_encoding,
      getOrCreate_lookup_ne _ _ _ _ (by simp; intro h; exact hu h.symm)]
    exact h1
  | none =>
    dsimp only
    rw [insert_lookup_ne _ _ _ _ _ (by simp; intro h; exact hu h.symm)]
    exact h1

theorem elemVisit_grows (ct : ElementCt) (supports : List (ℤ × ℕ))
    (exPos : ℕ) (v : ℤ) (c : Ctx) :
    Ctx.Grows c (elemVisit ct supports exPos v c) :=
  elemVisitCore_grows ct supports exPos v _ c

theorem constElemPhase2_grows (ct : ElementCt) (supports : List (ℤ × ℕ))
    (exPos : ℕ) :
    ∀ (S : List ℤ) (c : Ctx),
      Ctx.Grows c (constElemPhase2 ct supports exPos S c) := by
  intro S
  induction S with
  | nil => intro c; exact grows_refl c
  | cons v rest ih =>
    intro c
    simp only [constElemPhase2]
    exact grows_trans (elemVisit_grows ct supports exPos v c) (ih _)

theorem constElemPhase2_clause (ct : ElementCt) (supports : List (ℤ × ℕ))
    (exPos : ℕ) (img : ℤ → ℤ) (value0 : ℤ) (pos0 : ℕ)
    (hne : ct.index ≠ ct.target)
    (hv0 : List.lookup value0 supports = some pos0)
    (hpos0ex : pos0 ≠ exPos)
    (hinj : ∀ w1 p w2, List.lookup w1 supports = some p →
      List.lookup w2 supports = some p → w1 = w2) :
    ∀ (S : List ℤ) (c : Ctx) (L : List ℤ),
      (∀ w ∈ S, c.minOfVar (ct.vars.getD w.toNat 0) = img w) →
      (∀ w ∈ S, ct.vars.getD w.toNat 0 < c.numVars) →
      pos0 < c.constraints.length →
      c.constraints[pos0]? = some ⟨[], .boolOr L⟩ →
      (constElemPhase2 ct supports exPos S c).constraints[pos0]? =
        some ⟨[], .boolOr (L ++ (S.filter fun w => img w == value0).map
          fun w => ((constElemPhase2 ct supports exPos S c).encoding.lookup
            (ct.index, w)).getD 0)⟩ := by
  intro S
  induction S with
  | nil =>
    intro c L _ _ _ hcur
    simpa [constElemPhase2] using hcur
  | cons v rest ih =>
    intro c L himg hvlt hlen hcur
    have hmv : c.minOfVar (ct.vars.getD v.toNat 0) = img v :=
      himg v (List.mem_cons_self v rest)
    have hlt : ct.vars.getD v.toNat 0 < c.numVars :=
      hvlt v (List.mem_cons_self v rest)
    simp only [constElemPhase2]
    rw [elemVisit_eq_core ct supports exPos v (img v) c hlt hmv]
    have hg := elemVisitCore_grows ct supports exPos v (img v) c
    have himg' : ∀ w ∈ rest, (elemVisitCore ct supports exPos v (img v)
        c).minOfVar (ct.vars.getD w.toNat 0) = img w := by
      intro w hw
      rw [grows_minOfVar hg _ (hvlt w (List.mem_cons_of_mem v hw))]
      exact himg w (List.mem_cons_of_mem v hw)
    have hvlt' : ∀ w ∈ rest, ct.vars.getD w.toNat 0 <
        (elemVisitCore ct supports exPos v (img v) c).numVars :=
      fun w hw => lt_of_lt_of_le (hvlt w (List.mem_cons_of_mem v hw))
        (grows_numVars hg)
    have hlen' : pos0 <
        (elemVisitCore ct supports exPos v (img v) c).constraints.length :=
      lt_of_lt_of_le hlen (elemVisitCore_length_le ct supports exPos v _ c)
    by_cases hval : img v = value0
    · have hm : List.lookup (img v) supports = some pos0 := by
        rw [hval]; exact hv0
      have hstep := elemVisitCore_getElem_match ct supports exPos v (img v) c
        pos0 L hm hpos0ex hlen hcur
      have hres := ih (elemVisitCore ct supports exPos v (img v) c)
        (L ++ [(c.getOrCreateVarValueEncoding ct.index v).1])
        himg' hvlt' hlen' hstep
      rw [hres, List.filter_cons_of_pos (by simp [hval]), List.map_cons]
      have hlook : (constElemPhase2 ct supports exPos rest
          (elemVisitCore ct supports exPos v (img v) c)).encoding.lookup
          (ct.index, v) = some (c.getOrCreateVarValueEncoding ct.index v).1 :=
        grows_lookup (constElemPhase2_grows ct supports exPos rest _) _ _
          (elemVisitCore_lookup_idx ct supports exPos v (img v) c hne)
      rw [hlook]
      simp
    · have hdiff : ∀ pos1, List.lookup (img v) supports = some pos1 →
          pos1 ≠ pos0 := by
        intro pos1 h1 he
        subst he
        exact hval (hinj _ _ _ h1 hv0)
      have hstep := elemVisitCore_getElem_other ct supports exPos v (img v) c
        pos0 hpos0ex hlen hdiff
      have hres := ih (elemVisitCore ct supports exPos v (img v) c) L
        himg' hvlt' hlen' (hstep.trans hcur)
      rw [hres, List.filter_cons_of_neg (by simp [hval])]

theorem constElemPhase2_alias (ct : ElementCt) (supports : List (ℤ × ℕ))
    (exPos : ℕ) (img : ℤ → ℤ) (hne : ct.index ≠ ct.target) :
    ∀ (S : List ℤ) (c : Ctx) (v0 : ℤ), v0 ∈ S →
      (∀ w ∈ S, c.minOfVar (ct.vars.getD w.toNat 0) = img w) →
      (∀ w ∈ S, ct.vars.getD w.toNat 0 < c.numVars) →
      List.lookup (img v0) supports = none →
      c.encoding.lookup (ct.target, img v0) = none →
      (∀ w ∈ S, img w = img v0 → w = v0) →
      ∃ lit, (constElemPhase2 ct supports exPos S c).encoding.lookup
          (ct.index, v0) = some lit ∧
        (constElemPhase2 ct supports exPos S c).encoding.lookup
          (ct.target, img v0) = some lit := by
  intro S
  induction S with
  | nil =>
    intro c v0 hmem
    simp at hmem
  | cons v rest ih =>
    intro c v0 hmem himg hvlt hsup hnone huniq
    have hmv : c.minOfVar (ct.vars.getD v.toNat 0) = img v :=
      himg v (List.mem_cons_self v rest)
    have hlt : ct.vars.getD v.toNat 0 < c.numVars :=
      hvlt v (List.mem_cons_self v rest)
    simp only [constElemPhase2]
    rw [elemVisit_eq_core ct supports exPos v (img v) c hlt hmv]
    by_cases hveq : v = v0
    · subst hveq
      have halias := elemVisitCore_alias ct supports exPos v (img v) c
        hsup hnone hne
      have hidx := elemVisitCore_lookup_idx ct supports exPos v (img v) c hne
      have hgrow := constElemPhase2_grows ct supports exPos rest
        (elemVisitCore ct supports exPos v (img v) c)
      exact ⟨(c.getOrCreateVarValueEncoding ct.index v).1,
        grows_lookup hgrow _ _ hidx, grows_lookup hgrow _ _ halias⟩
    · have htail : v0 ∈ rest := by
        rcases List.mem_cons.mp hmem with h | h
        · exact absurd h.symm hveq
        · exact h
      have hvne : img v ≠ img v0 := fun h =>
        hveq (huniq v (List.mem_cons_self v rest) h)
      have hg := elemVisitCore_grows ct supports exPos v (img v) c
      refine ih (elemVisitCore ct supports exPos v (img v) c) v0 htail
        ?_ ?_ hsup ?_ ?_
      · intro w hw
        rw [grows_minOfVar hg _ (hvlt w (List.mem_cons_of_mem v hw))]
        exact himg w (List.mem_cons_of_mem v hw)
      · exact fun w hw => lt_of_lt_of_le (hvlt w (List.mem_cons_of_mem v hw))
          (grows_numVars hg)
      · exact elemVisitCore_target_none ct supports exPos v (img v) (img v0) c
          hvne hne hnone
      · exact fun w hw => huniq w (List.mem_cons_of_mem v hw)

/-- Claim C7.  On the concrete scenario (constant array [7, 7, 9], index
variable over 0..2, target over 7..9, index distinct from target),
ExpandElement reduces the target domain to [7, 9], aliases the (index == 2)
literal with (target == 9) without creating a fresh Boolean, and emits the
support clause (index == 0) or (index == 1) or not (target == 7), as
witnessed by the full expanded context c7Expanded.  More generally, for
every run of ExpandConstantArrayElement on a context with valid cell
variables and no pre-existing target encodings, an array value selected by
exactly one index value gets the index literal registered as the target
encoding literal (aliasing), and an array value selected by more than one
index value gets a bool_or clause holding the negated target encoding
literal and the index literals of all its occurrences. -/
theorem c7_element_constant_array (ct : ElementCt) (ctx0 : Ctx)
    (hne : ct.index ≠ ct.target)
    (hvlt : ∀ v ∈ ctx0.domainOf ct.index,
      ct.vars.getD v.toNat 0 < ctx0.numVars)
    (hclean : ∀ value, ctx0.encoding.lookup (ct.target, value) = none) :
    ExpandElement c7Ct c7Ctx = (true, c7Expanded) ∧
    (ExpandConstantArrayElement ct ctx0).1 = true ∧
    ∀ v ∈ ctx0.domainOf ct.index,
      (countImg (elemImage ct ctx0) (ctx0.domainOf ct.index)
          (elemImage ct ctx0 v) = 1 →
        ∃ lit, (ExpandConstantArrayElement ct ctx0).2.encoding.lookup
            (ct.index, v) = some lit ∧
          (ExpandConstantArrayElement ct ctx0).2.encoding.lookup
            (ct.target, elemImage ct ctx0 v) = some lit) ∧
      (2 ≤ countImg (elemImage ct ctx0) (ctx0.domainOf ct.index)
          (elemImage ct ctx0 v) →
        ∃ tlit, (ExpandConstantArrayElement ct ctx0).2.encoding.lookup
            (ct.target, elemImage ct ctx0 v) = some tlit ∧
          (⟨[], .boolOr (NegatedRef tlit ::
            ((ctx0.domainOf ct.index).filter fun w =>
              elemImage ct ctx0 w == elemImage ct ctx0 v).map fun w =>
              ((ExpandConstantArrayElement ct ctx0).2.encoding.lookup
                (ct.index, w)).getD 0)⟩ : Cst) ∈
            (ExpandConstantArrayElement ct ctx0).2.constraints) := by
  have hp1 := constElemPhase1_spec ct (elemImage ct ctx0)
    (ctx0.domainOf ct.index) ctx0 (fun _ => 0) [] (fun v _ => rfl) hvlt
    ⟨fun value => by simp, fun value pos h => by simp at h,
      fun w1 p w2 h1 => by simp at h1, fun value _ => hclean value⟩
  obtain ⟨hgrow1, hiff0, hcontent, hinj, hnonef⟩ := hp1
  have hiff : ∀ value,
      (List.lookup value (constElemPhase1 ct (ctx0.domainOf ct.index) ctx0
        (fun _ => 0) []).2.2).isSome ↔
      2 ≤ countImg (elemImage ct ctx0) (ctx0.domainOf ct.index) value := by
    intro value
    have h := hiff0 value
    simpa using h
  have hdef : (ExpandConstantArrayElement ct ctx0).2 =
      constElemPhase2 ct
        (constElemPhase1 ct (ctx0.domainOf ct.index) ctx0 (fun _ => 0) []).2.2
        (constElemPhase1 ct (ctx0.domainOf ct.index) ctx0 (fun _ => 0)
          []).1.constraints.length
        (ctx0.domainOf ct.index)
        ((constElemPhase1 ct (ctx0.domainOf ct.index) ctx0 (fun _ => 0)
          []).1.addCst ⟨[], .exactlyOne []⟩) := rfl
  have hgrow2 : Ctx.Grows ctx0
      ((constElemPhase1 ct (ctx0.domainOf ct.index) ctx0 (fun _ => 0)
        []).1.addCst ⟨[], .exactlyOne []⟩) :=
    grows_trans hgrow1 (grows_addCst _ _)
  have himg2 : ∀ w ∈ ctx0.domainOf ct.index,
      ((constElemPhase1 ct (ctx0.domainOf ct.index) ctx0 (fun _ => 0)
        []).1.addCst ⟨[], .exactlyOne []⟩).minOfVar (ct.vars.getD w.toNat 0) =
      elemImage ct ctx0 w := by
    intro w hw
    rw [grows_minOfVar hgrow2 _ (hvlt w hw)]
    rfl
  have hvlt2 : ∀ w ∈ ctx0.domainOf ct.index, ct.vars.getD w.toNat 0 <
      ((constElemPhase1 ct (ctx0.domainOf ct.index) ctx0 (fun _ => 0)
        []).1.addCst ⟨[], .exactlyOne []⟩).numVars :=
    fun w hw => lt_of_lt_of_le (hvlt w hw) (grows_numVars hgrow2)
  refine ⟨by decide, rfl, ?_⟩
  intro v hv
  constructor
  · intro hcount1
    have hsupnone : List.lookup (elemImage ct ctx0 v)
        (constElemPhase1 ct (ctx0.domainOf ct.index) ctx0 (fun _ => 0)
          []).2.2 = none := by
      cases hs : List.lookup (elemImage ct ctx0 v)
          (constElemPhase1 ct (ctx0.domainOf ct.index) ctx0 (fun _ => 0)
            []).2.2 with
      | none => rfl
      | some p =>
        have h2 := (hiff _).mp (by rw [hs]; rfl)
        omega
    have hnone2 : ((constElemPhase1 ct (ctx0.domainOf ct.index) ctx0
        (fun _ => 0) []).1.addCst
        ⟨[], .exactlyOne []⟩).encoding.lookup
        (ct.target, elemImage ct ctx0 v) = none := hnonef _ hsupnone
    have huniq : ∀ w ∈ ctx0.domainOf ct.index,
        elemImage ct ctx0 w = elemImage ct ctx0 v → w = v := by
      intro w hw heq
      by_contra hne2
      have h2 := two_le_filter_length
        (fun u => elemImage ct ctx0 u == elemImage ct ctx0 v)
        (ctx0.domainOf ct.index) w v hw hv hne2 (by simp [heq]) (by simp)
      simp only [countImg] at hcount1
      omega
    obtain ⟨lit, hl1, hl2⟩ := constElemPhase2_alias ct
      (constElemPhase1 ct (ctx0.domainOf ct.index) ctx0 (fun _ => 0) []).2.2
      (constElemPhase1 ct (ctx0.domainOf ct.index) ctx0 (fun _ => 0)
        []).1.constraints.length
      (elemImage ct ctx0) hne (ctx0.domainOf ct.index) _ v hv himg2 hvlt2
      hsupnone hnone2 huniq
    exact ⟨lit, by rw [hdef]; exact hl1, by rw [hdef]; exact hl2⟩
  · intro hcount2
    have hsup : (List.lookup (elemImage ct ctx0 v)
        (constElemPhase1 ct (ctx0.domainOf ct.index) ctx0 (fun _ => 0)
          []).2.2).isSome := (hiff _).mpr hcount2
    obtain ⟨pos, hpos⟩ := Option.isSome_iff_exists.mp hsup
    obtain ⟨hplt, tlit, htlit, hcst⟩ := hcontent _ _ hpos
    have hplt2 : pos < ((constElemPhase1 ct (ctx0.domainOf ct.index) ctx0
        (fun _ => 0) []).1.addCst
        ⟨[], .exactlyOne []⟩).constraints.length := by
      rw [addCst_length]
      omega
    have hcst2 : ((constElemPhase1 ct (ctx0.domainOf ct.index) ctx0
        (fun _ => 0) []).1.addCst
        ⟨[], .exactlyOne []⟩).constraints[pos]? =
        some ⟨[], .boolOr [NegatedRef tlit]⟩ := by
      rw [addCst_getElem_lt _ _ _ hplt]
      exact hcst
    have hposex : pos ≠ (constElemPhase1 ct (ctx0.domainOf ct.index) ctx0
        (fun _ => 0) []).1.constraints.length := Nat.ne_of_lt hplt
    have hfinal := constElemPhase2_clause ct
      (constElemPhase1 ct (ctx0.domainOf ct.index) ctx0 (fun _ => 0) []).2.2
      (constElemPhase1 ct (ctx0.domainOf ct.index) ctx0 (fun _ => 0)
        []).1.constraints.length
      (elemImage ct ctx0) (elemImage ct ctx0 v) pos hne hpos hposex hinj
      (ctx0.domainOf ct.index) _ [NegatedRef tlit] himg2 hvlt2 hplt2 hcst2
    have htlitf := grows_lookup (constElemPhase2_grows ct
      (constElemPhase1 ct (ctx0.domainOf ct.index) ctx0 (fun _ => 0) []).2.2
      (constElemPhase1 ct (ctx0.domainOf ct.index) ctx0 (fun _ => 0)
        []).1.constraints.length
      (ctx0.domainOf ct.index)
      ((constElemPhase1 ct (ctx0.domainOf ct.index) ctx0 (fun _ => 0)
        []).1.addCst ⟨[], .exactlyOne []⟩))
      (ct.target, elemImage ct ctx0 v) tlit htlit
    refine ⟨tlit, by rw [hdef]; exact htlitf, ?_⟩
    rw [hdef]
    have hmem := List.getElem?_mem hfinal
    simpa using hmem

/-- Closed instantiation of the C7 theorem on the post-reduction context of
the concrete scenario: the constraint is cleared, the multiplicity-one value
9 is aliased at index value 2, and the multiplicity-two value 7 gets its
support clause. -/
theorem c7_element_constant_array_witness :
    (ExpandConstantArrayElement c7Ct c7PostCtx).1 = true ∧
    (∃ lit, (ExpandConstantArrayElement c7Ct c7PostCtx).2.encoding.lookup
        (c7Ct.index, 2) = some lit ∧
      (ExpandConstantArrayElement c7Ct c7PostCtx).2.encoding.lookup
        (c7Ct.target, elemImage c7Ct c7PostCtx 2) = some lit) ∧
    (∃ tlit, (ExpandConstantArrayElement c7Ct c7PostCtx).2.encoding.lookup
        (c7Ct.target, elemImage c7Ct c7PostCtx 0) = some tlit ∧
      (⟨[], .boolOr (NegatedRef tlit ::
        ((c7PostCtx.domainOf c7Ct.index).filter fun w =>
          elemImage c7Ct c7PostCtx w == elemImage c7Ct c7PostCtx 0).map
          fun w => ((ExpandConstantArrayElement c7Ct
            c7PostCtx).2.encoding.lookup (c7Ct.index, w)).getD 0)⟩ : Cst) ∈
        (ExpandConstantArrayElement c7Ct c7PostCtx).2.constraints) := by
  obtain ⟨-, h1, h2⟩ := c7_element_constant_array c7Ct c7PostCtx (by decide)
    (by decide) (fun _ => rfl)
  exact ⟨h1, (h2 2 (by decide)).1 (by decide), (h2 0 (by decide)).2 (by decide)⟩

/-- Claim C1.  The claim says every expanded family preserves the feasible
assignments with every newly introduced variable functionally determined by
the original variables.  For the complex-rhs linear family this fails when
the constraint carries an enforcement literal (the code notes it itself at
cp_model_expand.cc:1678-1681): on e implies x + y in [0,0] or [2,2], the
Boolean encoding produces c1Expanded, and the two assignments c1Sigma1 and
c1Sigma2 both solve the expanded model and agree on all three original
variables (e = 0, x = y = 0, a solution of the original constraint), yet
disagree on the fresh subdomain Boolean, variable 3 - so the new variable is
not functionally determined by the originals. -/
theorem c1_complex_linear_not_functional :
    ExpandComplexLinearConstraint false false [0] c1Pl c1Ctx =
      (none, c1Expanded) ∧
    cstHolds c1Sigma1 ⟨[0], .linear c1Pl⟩ = true ∧
    cstHolds c1Sigma2 ⟨[0], .linear c1Pl⟩ = true ∧
    modelHolds c1Sigma1 c1Ctx = true ∧
    modelHolds c1Sigma2 c1Ctx = true ∧
    modelHolds c1Sigma1 c1Expanded = true ∧
    modelHolds c1Sigma2 c1Expanded = true ∧
    (∀ v < c1Ctx.numVars, c1Sigma1 v = c1Sigma2 v) ∧
    c1Ctx.numVars = 3 ∧
    3 < c1Expanded.numVars ∧
    c1Sigma1 3 ≠ c1Sigma2 3 := by
  decide

end Spec2Proof
